import Mathlib

/-!
# A verification development for gofumpt's `format` package

This file gives a shallow embedding, in Lean 4, of the formatting engine in
`src/format/format.go` (package `format` of gofumpt), together with theorems
about the embedded operations.

Conventions of the embedding:

* A `token.Pos` / byte offset is an `Int` (Go `int`; file base is taken as 0,
  so positions and offsets coincide).
* The mutable line table of a `token.File` (`f.lines`) is a `List Int` of
  line-start offsets; line numbers are 1-based, as in Go.
* `go/ast` nodes are modelled by small structures carrying exactly the fields
  the embedded rules read (positions, shape flags, element lists).
* Mutation of the line table is modelled by explicit state passing: each rule
  takes the table and returns the updated table.
* Go functions that can panic are embedded as total functions; the panicking
  branches are documented where they occur and excluded by hypotheses.
-/

namespace Gofumpt

/-! ## Line table

The line table of a `token.File` is its sorted list of line-start offsets
(`f.lines`); `lines[i]` is the byte offset at which (1-based) line `i+1`
starts, and `lines[0] = 0`.
-/

/-- `token.File.Line (pos)`: the 1-based line of an offset.  Go implements it
as `searchInts(lines, offset) + 1`, the number of line starts at or before
`offset`; for a sorted table this equals the count of entries `≤ off`. -/
def lineOf (lines : List Int) (off : Int) : Nat :=
  lines.countP (fun s => decide (s ≤ off))

/-- The loop body of `fumpter.addNewline` (format.go:195-220).  Walks the old
line slice accumulating a new one; returns `none` for the early
`return` taken when the offset is already a line start (meaning: keep the old
table).  The Go code reuses the variable `offset` as state, setting it to `-1`
once the new entry has been placed; we thread that `Int` unchanged. -/
def addNewlineAux (offset : Int) : List Int → Option (List Int)
  | [] => some (if 0 ≤ offset then [offset] else [])
  | cur :: rest =>
    if offset = cur then
      -- "This newline already exists; do nothing."
      none
    else if 0 ≤ offset ∧ offset < cur then
      (addNewlineAux (-1) rest).map (fun l => offset :: cur :: l)
    else
      (addNewlineAux offset rest).map (fun l => cur :: l)

/-- `fumpter.addNewline (at)`: force a line break at the given offset.
A no-op if a line already starts there. -/
def addNewline (lines : List Int) (offset : Int) : List Int :=
  (addNewlineAux offset lines).getD lines

/-- `token.File.MergeLine (line)`: merge (1-based) `line` with the following
line by deleting the entry `lines[line]`, the start of line `line+1`.
(Go panics when `line` is not a valid non-final line; such calls do not occur
under the hypotheses of the theorems below.) -/
def mergeLine (lines : List Int) (line : Nat) : List Int :=
  lines.eraseIdx line

/-- `fumpter.removeLines (fromLine, toLine)`: `for fromLine < toLine
{ f.MergeLine(fromLine); toLine-- }` (format.go:224-229); structured as
recursion on the decreasing loop variable `toLine`. -/
def removeLines (lines : List Int) (fromLine : Nat) : Nat → List Int
  | 0 => lines
  | t + 1 =>
    if fromLine < t + 1 then removeLines (mergeLine lines fromLine) fromLine t
    else lines

/-- The loop equation of `removeLines`. -/
theorem removeLines_ite (lines : List Int) (fromLine toLine : Nat) :
    removeLines lines fromLine toLine =
      if fromLine < toLine then
        removeLines (mergeLine lines fromLine) fromLine (toLine - 1)
      else lines := by
  cases toLine with
  | zero => rw [removeLines, if_neg (by omega)]
  | succ t => rw [removeLines]; rfl

/-- `fumpter.removeLinesBetween (from, to)` =
`removeLines (Line(from)+1) (Line(to))`: leave one newline between the two
positions (format.go:233-235). -/
def removeLinesBetween (lines : List Int) (fromPos toPos : Int) : List Int :=
  removeLines lines (lineOf lines fromPos + 1) (lineOf lines toPos)

/-- `fumpter.lineEnd (line)` (format.go:271-283): the position of the end of
the line — the file end for the last line, otherwise
`LineStart(line+1) - 1 = lines[line] - 1`.  (The `line < 1` and
`line > LineCount` panics are excluded by hypotheses.) -/
def lineEnd (lines : List Int) (fileEnd : Int) (line : Nat) : Int :=
  if line = lines.length then fileEnd else lines.getD line 0 - 1

/-- `token.Position.Column` of an offset: one plus its distance to the start
of its line (`lines[lineOf off - 1]`). -/
def colOf (lines : List Int) (off : Int) : Int :=
  off - lines.getD (lineOf lines off - 1) 0 + 1

/-! ## Comment index -/

/-- A single `ast.Comment`: a slash-slash or slash-star token.  `pos`/`endP`
are its `Pos()`/`End()`; `text` its source text. -/
structure Comment where
  pos : Int
  endP : Int
  text : List Char
deriving Repr, DecidableEq, Inhabited

/-- An `ast.CommentGroup`: a nonempty run of adjacent comments.  Its `Pos()`
is the first comment's `Pos()` and its `End()` the last comment's `End()`. -/
structure CommentGroup where
  list : List Comment
deriving Repr, DecidableEq, Inhabited

def CommentGroup.pos (g : CommentGroup) : Int := (g.list.headD default).pos

def CommentGroup.endP (g : CommentGroup) : Int := (g.list.getLastD default).endP

/-- `sort.Search (n, p)` by its documented contract: the smallest `i < n` with
`p i`, or `n` when there is none.  (Go's binary search meets this contract
exactly when `p` is monotone — false then true — which holds at both call
sites below because the comment list is position-sorted.) -/
def goSearch (n : Nat) (p : Nat → Bool) : Nat :=
  List.findIdx p (List.range n)

/-- `fumpter.commentsBetween (p1, p2)` (format.go:164-175): the comment groups
with `p1 ≤ Pos() < p2`, computed as in Go by two `sort.Search` calls and
slicing. -/
def commentsBetween (groups : List CommentGroup) (p1 p2 : Int) : List CommentGroup :=
  let i1 := goSearch groups.length (fun i => decide ((groups.getD i default).pos ≥ p1))
  let rest := groups.drop i1
  let i2 := goSearch rest.length (fun i => decide ((rest.getD i default).pos ≥ p2))
  rest.take i2

/-- `fumpter.inlineComment (pos)` (format.go:177-192): find the first comment
group at or after `pos`; within it, return the first comment whose line equals
the line of `pos`, else `none`. -/
def inlineComment (groups : List CommentGroup) (lines : List Int) (pos : Int) :
    Option Comment :=
  let i := goSearch groups.length (fun i => decide ((groups.getD i default).pos ≥ pos))
  if h : i < groups.length then
    let line := lineOf lines pos
    (groups.get ⟨i, h⟩).list.find? (fun c => decide (lineOf lines c.pos = line))
  else
    none

/-! ## Statements (the fragment of `go/ast` read by `stmts` and the
`*ast.BlockStmt` rule) -/

/-- Binary operator tokens; only `token.NEQ` is inspected by the code. -/
inductive BinOp
  | neq
  | otherOp
deriving Repr, DecidableEq

/-- The fragment of `ast.Expr` inspected by `stmts`/`identEqual`. -/
inductive GoExpr
  | ident (name : String)
  | binary (op : BinOp) (x y : GoExpr)
  | otherExpr
deriving Repr, DecidableEq

/-- The assignment token: `token.DEFINE` (`:=`) or anything else. -/
inductive AssignTok
  | define
  | otherTok
deriving Repr, DecidableEq

/-- The fragment of `ast.Stmt` inspected by `stmts`, with each statement's
`Pos()`/`End()`.  For an `*ast.IfStmt`, `hasInit`/`hasElse` record whether
`Init`/`Else` are non-nil. -/
inductive GoStmt
  | assign (lhs : List GoExpr) (tok : AssignTok) (pos endP : Int)
  | ifS (hasInit : Bool) (cond : GoExpr) (hasElse : Bool) (pos endP : Int)
  | otherStmt (pos endP : Int)
deriving Repr, DecidableEq

instance : Inhabited GoStmt := ⟨.otherStmt 0 0⟩

def GoStmt.pos : GoStmt → Int
  | .assign _ _ p _ => p
  | .ifS _ _ _ p _ => p
  | .otherStmt p _ => p

def GoStmt.endP : GoStmt → Int
  | .assign _ _ _ e => e
  | .ifS _ _ _ _ e => e
  | .otherStmt _ e => e

/-- `identEqual (expr, name)` (format.go:750-753). -/
def identEqual (expr : GoExpr) (name : String) : Bool :=
  match expr with
  | .ident n => n = name
  | _ => false

/-- The condition under which the loop body of `stmts` (format.go:727-748)
reaches `removeLinesBetween` for an adjacent pair `(prev, cur)`:
`cur` is an `if` with no init and no else whose condition is the binary
comparison `err != nil`, and `prev` is a `:=` assignment whose last left-hand
side is the identifier `err`.  (Go indexes `as.Lhs[len(as.Lhs)-1]`, a panic on
an empty `Lhs`, which the parser never produces; an empty `Lhs` is mapped to
`false`.) -/
def errGuardPair (prev cur : GoStmt) : Bool :=
  match cur, prev with
  | .ifS hasInit cond hasElse _ _, .assign lhs tok _ _ =>
    tok = AssignTok.define &&
    (match lhs.getLast? with
     | some e => identEqual e "err"
     | none => false) &&
    (match cond with
     | .binary op x y =>
       !hasInit && !hasElse && op = BinOp.neq &&
       identEqual x "err" && identEqual y "nil"
     | _ => false)
  | _, _ => false

/-- `fumpter.stmts (list)` (format.go:727-748): for each statement that
follows another one, if the pair matches the `..., err := ...` /
`if err != nil` pattern, remove the blank lines between them via
`removeLinesBetween(as.End(), ifs.Pos())`.  The loop over indices `i ≥ 1`
with `prev = list[i-1]` is the fold over adjacent pairs. -/
def stmts (lines : List Int) (list : List GoStmt) : List Int :=
  (list.zip (list.drop 1)).foldl
    (fun t pr =>
      if errGuardPair pr.1 pr.2 then removeLinesBetween t pr.1.endP pr.2.pos
      else t)
    lines

/-! ## The `*ast.BlockStmt` case of `applyPre` (format.go:439-502) -/

/-- A function signature (`ast.FuncType`) as read by the block rule: its
`Pos()`/`End()` and the `Pos()` of the last field of its `Results`
(preferred) or `Params` list, when any. -/
structure FuncSig where
  pos : Int
  endP : Int
  /-- `Pos()` of the last field of `Results` when `Results` is non-nil and
  nonempty, else of the last field of `Params`; `none` when both lists are
  nil or empty (format.go:488-493). -/
  lastParamPos : Option Int
deriving Repr, DecidableEq

/-- The parent of a block, as matched by the `switch parent := c.Parent()`
at format.go:449-458.  For `if`/`for` parents we record the condition's
`Pos()`/`End()` (`none` when the `for` has no condition). -/
inductive BlockParent
  | funcParent (sign : FuncSig)
  | condParent (cond : Option (Int × Int))
  | otherParent
deriving Repr, DecidableEq

/-- An `ast.BlockStmt`: brace positions and statement list. -/
structure BlockStmt where
  lbrace : Int
  rbrace : Int
  list : List GoStmt
deriving Repr, DecidableEq

/-- The `var sign *ast.FuncType` assignment of the block rule
(format.go:449-458): set from a `FuncDecl`/`FuncLit` parent. -/
def blockSign : BlockParent → Option FuncSig
  | .funcParent s => some s
  | _ => none

/-- The `var cond ast.Expr` assignment of the block rule (format.go:449-458):
set from an `IfStmt`/`ForStmt` parent. -/
def blockCond : BlockParent → Option (Int × Int)
  | .condParent c => c
  | _ => none

/-- The `case *ast.BlockStmt` of `applyPre` (format.go:439-502), returning the
updated line table.  Statements are processed first by `stmts`; empty blocks
have their interior newlines removed; otherwise, for function bodies (any
statement count) or single-statement bodies, the blank lines between the
braces and the body (extended by interior comments) are removed, except for
the two readability cases (multi-line condition, multi-line signature ending
with its last parameter). -/
def applyPreBlockStmt (lines : List Int) (groups : List CommentGroup)
    (node : BlockStmt) (parent : BlockParent) : List Int :=
  let lines := stmts lines node.list
  let comments := commentsBetween groups node.lbrace node.rbrace
  if node.list = [] ∧ comments = [] then
    removeLinesBetween lines node.lbrace node.rbrace
  else
    let sign := blockSign parent
    let cond := blockCond parent
    if node.list.length > 1 ∧ sign = none then
      -- "only if we have a single statement, or if it's a func body."
      lines
    else
      -- bodyPos, bodyEnd start as token.NoPos (0, invalid)
      let bodyPos : Int := if node.list ≠ [] then (node.list.headD default).pos else 0
      let bodyEnd : Int := if node.list ≠ [] then (node.list.getLastD default).endP else 0
      let bodyPos :=
        if comments ≠ [] ∧ (¬bodyPos ≠ 0 ∨ (comments.headD default).pos < bodyPos) then
          (comments.headD default).pos
        else bodyPos
      -- NB: the Go code re-tests `!bodyPos.IsValid()` (not bodyEnd) here.
      let bodyEnd :=
        if comments ≠ [] ∧ (¬bodyPos ≠ 0 ∨ (comments.getLastD default).endP > bodyEnd) then
          (comments.getLastD default).endP
        else bodyEnd
      let lines := removeLinesBetween lines bodyEnd node.rbrace
      match cond with
      | some (cpos, cend) =>
        if lineOf lines cpos ≠ lineOf lines cend then
          -- multi-line condition: keep the empty line
          lines
        else removeLinesBetween lines node.lbrace bodyPos
      | none =>
        match sign with
        | some s =>
          let endLine := lineOf lines s.endP
          if h : s.lastParamPos.isSome then
            if lineOf lines s.pos ≠ endLine ∧ lineOf lines (s.lastParamPos.get h) = endLine then
              -- multi-line signature: keep the empty line
              lines
            else removeLinesBetween lines node.lbrace bodyPos
          else removeLinesBetween lines node.lbrace bodyPos
        | none => removeLinesBetween lines node.lbrace bodyPos

/-! ## The `*ast.CompositeLit` case of `applyPost` (format.go:558-631) -/

/-- An element of a composite literal, as read by the rule: its
`Pos()`/`End()` and whether it is itself an `*ast.CompositeLit`. -/
structure Elt where
  pos : Int
  endP : Int
  isComp : Bool
deriving Repr, DecidableEq, Inhabited

/-- An `ast.CompositeLit`: brace positions and elements. -/
structure CompositeLit where
  lbrace : Int
  rbrace : Int
  elts : List Elt
deriving Repr, DecidableEq

/-- The element loop of the composite-literal rule (format.go:575-590): one
step of the fold.  State: current table, `newlineAroundElems`,
`newlineBetweenElems`, `lastLine`, element index. -/
def eltStep (openLine : Nat) :
    List Int × Bool × Bool × Nat × Nat → Elt → List Int × Bool × Bool × Nat × Nat
  | (t, around, between, lastLine, i), elem =>
    if lineOf t elem.pos > lastLine then
      if i = 0 then
        -- "rm leading lines if they exist"
        (removeLines t (openLine + 1) (lineOf t elem.pos), true, between,
          lineOf (removeLines t (openLine + 1) (lineOf t elem.pos)) elem.endP,
          i + 1)
      else (t, around, true, lineOf t elem.endP, i + 1)
    else (t, around, between, lineOf t elem.endP, i + 1)

/-- The `case *ast.CompositeLit` of `applyPost` (format.go:563-630), returning
the updated line table. -/
def applyPostCompositeLit (lines : List Int) (node : CompositeLit) : List Int :=
  if node.elts = [] then lines
  else
    let openLine := lineOf lines node.lbrace
    let closeLine := lineOf lines node.rbrace
    if openLine = closeLine then lines
    else
      let (lines, around0, between, lastLine, _) :=
        node.elts.foldl (eltStep openLine) (lines, false, false, openLine, 0)
      let around := around0 || decide (closeLine > lastLine)
      let (lines, closeLine) :=
        if between || around then
          let first := node.elts.headD default
          let (lines, closeLine) :=
            if openLine = lineOf lines first.pos then
              -- "We want the newline right after the brace."
              let t := addNewline lines (node.lbrace + 1)
              (t, lineOf t node.rbrace)
            else (lines, closeLine)
          let last := node.elts.getLastD default
          let lines :=
            if closeLine = lineOf lines last.endP then
              -- "We want the newline right before the brace."
              addNewline lines node.rbrace
            else lines
          (lines, closeLine)
        else (lines, closeLine)
      -- "If there's a newline between any consecutive elements, there must be
      -- a newline between all composite literal elements." — but breaks are
      -- only inserted for pairs involving a composite literal:
      if !between then lines
      else
        (node.elts.zip (node.elts.drop 1)).foldl
          (fun t pr =>
            if (pr.1.isComp || pr.2.isComp) &&
                decide (lineOf t pr.1.endP = lineOf t pr.2.pos) then
              addNewline t pr.1.endP
            else t)
          lines

/-! ## `splitLongLine` (format.go:633-714) -/

/-- "Multiline nodes which could easily fit on a single line under this many
bytes may be collapsed onto a single line." (format.go:140) -/
def shortLineLimit : Nat := 60

/-- "Single-line nodes which take over this many bytes ... may be split."
(format.go:144) -/
def longLineLimit : Nat := 100

/-- The per-context minimum split length `int(f.minSplitFactor *
longLineLimit)` (format.go:709).  `minSplitFactor` is the `float64` 0.4 by
default, 0.6 inside a top-level function's parameter list and 1000 inside its
result list (format.go:83-115).  In `float64` arithmetic the products
`0.4*100`, `0.6*100` and `1000*100` round to exactly `40.0`, `60.0` and
`100000.0`, so the truncating `int` conversion yields these exact
integers per context. -/
inductive SplitContext
  | defaultCtx
  | topFuncParams
  | topFuncResults
deriving Repr, DecidableEq

def minSplitLength : SplitContext → Int
  | .defaultCtx => 40
  | .topFuncParams => 60
  | .topFuncResults => 100000

/-- The shape of the visited node, so far as `splitLongLine` inspects it:
a composite literal (possibly behind `&`-style unary wrappers, per
`isComposite`) with the positions of its elements, a call with the positions
of its arguments, or anything else. -/
inductive SplitNode
  | compositeN (pos endP : Int) (eltPos : List Int)
  | callN (pos endP : Int) (argPos : List Int)
  | plainN (pos endP : Int)
deriving Repr, DecidableEq

def SplitNode.pos : SplitNode → Int
  | .compositeN p _ _ => p
  | .callN p _ _ => p
  | .plainN p _ => p

def SplitNode.endP : SplitNode → Int
  | .compositeN _ e _ => e
  | .callN _ e _ => e
  | .plainN _ e => e

/-- `fumpter.splitLongLine (c)` (format.go:633-714), returning the updated
line table.  `envOn` models `os.Getenv("GOFUMPT_SPLIT_LONG_LINES") == "on"`;
`inList` models `c.Parent()` being a `*ast.BinaryExpr` or `c.Index() >= 0`;
`fileEnd` is `astFile.End()` for `lineEnd`.  The two `panic("negative
length")` branches are excluded by the hypotheses of the theorems below
(columns are positive on well-formed tables). -/
def splitLongLineMain (lines : List Int) (fileEnd : Int)
    (blockLevel : Nat) (ctx : SplitContext) (inList : Bool) (node : SplitNode) :
    List Int :=
    let startLine := lineOf lines node.pos
    let endLine := lineOf lines node.endP
    if startLine ≠ endLine then lines
    else if !inList then lines
    else
      let startColBase := colOf lines node.pos
      let startCol := startColBase + (blockLevel : Int) * 7
      let endCol := colOf lines node.endP + (blockLevel : Int) * 7
      let newlinePos :=
        match node with
        | .compositeN p _ eltPos =>
          -- insert the newline before the first element instead
          match eltPos with
          | e :: _ => e
          | [] => p
        | _ => node.pos
      let startCol :=
        match node with
        | .callN _ _ (a :: _) =>
          -- average of the call's and the first argument's start columns
          -- Go integer division truncates toward zero, i.e. `Int.tdiv`
          startCol + Int.tdiv (colOf lines a - startColBase) 2
        | _ => startCol
      if startCol ≤ (shortLineLimit : Int) then lines
      else
        let lineEndCol := colOf lines (lineEnd lines fileEnd startLine)
        let firstLength := startColBase - (blockLevel : Int)
        let secondLength := lineEndCol - startColBase
        let msl := minSplitLength ctx
        if endCol > (longLineLimit : Int) ∧ firstLength ≥ msl ∧ secondLength ≥ msl then
          addNewline lines newlinePos
        else lines

/-- `fumpter.splitLongLine`, with the `GOFUMPT_SPLIT_LONG_LINES` gate
(format.go:634-638) in front of the main body. -/
def splitLongLine (envOn : Bool) (lines : List Int) (fileEnd : Int)
    (blockLevel : Nat) (ctx : SplitContext) (inList : Bool) (node : SplitNode) :
    List Int :=
  if !envOn then lines
  else splitLongLineMain lines fileEnd blockLevel ctx inList node

/-! ## Comment spacing normalization: the `groupLoop` of the `*ast.File` case
of `applyPre` (format.go:360-387) -/

/-- `unicode.IsLetter`, on the ASCII fragment (every character appearing in
the theorems below is ASCII, where the Unicode letter property is exactly
these two ranges). -/
def isLetter (c : Char) : Bool :=
  ('a' ≤ c && c ≤ 'z') || ('A' ≤ c && c ≤ 'Z')

/-- `unicode.IsNumber`, on the ASCII fragment (the digits). -/
def isNumber (c : Char) : Bool :=
  '0' ≤ c && c ≤ '9'

/-- `unicode.IsSpace`, on the Latin-1 fragment, where it is exactly
`'\t'`, `'\n'`, `'\v'`, `'\f'`, `'\r'`, `' '`, U+0085, U+00A0. -/
def isSpace (c : Char) : Bool :=
  c = ' ' || c = '\t' || c = '\n' || c = (Char.ofNat 11) || c = (Char.ofNat 12) ||
  c = '\r' || c = (Char.ofNat 0x85) || c = (Char.ofNat 0xA0)

/-- `strings.TrimPrefix (text, "//")`: drop the leading two slashes when
present, else return the text unchanged. -/
def trimSlashes (text : List Char) : List Char :=
  match text with
  | '/' :: '/' :: rest => rest
  | _ => text

/-- `utf8.DecodeRuneInString` applied to the first rune: the head character,
or `utf8.RuneError` (U+FFFD) on the empty string.  (Texts are modelled as
`List Char`, i.e. already decoded runes.) -/
def firstRune (s : List Char) : Char :=
  s.headD (Char.ofNat 0xFFFD)

/-- A word character for the regexp metacharacter `\b`: `[0-9A-Za-z_]`. -/
def isWordChar (c : Char) : Bool :=
  isLetter c || isNumber c || c = '_'

/-- A `\b` word boundary directly after a literal word: the rest of the text
starts with a non-word character or is empty. -/
def atBoundary : List Char → Bool
  | [] => true
  | c :: _ => !isWordChar c

/-- The text starts with `w` followed by a `\b` boundary. -/
def startsWord (s w : List Char) : Bool :=
  s.take w.length = w && atBoundary (s.drop w.length)

/-- `rxCommentDirective.MatchString (body)` (format.go:297): the anchored
regexp `^([a-z-]+:[a-z]+|line\b|export\b|extern\b|sys(nb)?\b|nolint\b)`.
For the first alternative, since `:` is not in `[a-z-]`, a match exists
exactly when the maximal leading run of `[a-z-]` characters is nonempty and
is followed by `:` and a lowercase letter. -/
def rxCommentDirective (s : List Char) : Bool :=
  (let t := s.takeWhile (fun c => ('a' ≤ c && c ≤ 'z') || c = '-')
   match s.drop t.length with
   | ':' :: c :: _ => !t.isEmpty && ('a' ≤ c && c ≤ 'z')
   | _ => false) ||
  startsWord s ['l', 'i', 'n', 'e'] ||
  startsWord s ['e', 'x', 'p', 'o', 'r', 't'] ||
  startsWord s ['e', 'x', 't', 'e', 'r', 'n'] ||
  startsWord s ['s', 'y', 's', 'n', 'b'] ||
  startsWord s ['s', 'y', 's'] ||
  startsWord s ['n', 'o', 'l', 'i', 'n', 't']

/-- The first inner loop of `groupLoop` (format.go:362-377), as a predicate on
one comment's text: the group is skipped (`continue groupLoop`) unless every
comment is a `//` comment, is not a directive, and has a letter, number or
space as its first rune. -/
def commentOk (text : List Char) : Bool :=
  let body := trimSlashes text
  !(body = text) &&
  !rxCommentDirective body &&
  (let r := firstRune body
   isLetter r || isNumber r || isSpace r)

/-- The second inner loop of `groupLoop` (format.go:380-386), on one comment's
text: prepend `"// "` to the trimmed body when the body does not start with a
space. -/
def normalizeComment (text : List Char) : List Char :=
  let body := trimSlashes text
  let r := firstRune body
  if !isSpace r then '/' :: '/' :: ' ' :: trimSlashes text else text

/-- `groupLoop` (format.go:360-387) on a single comment group, given as the
list of its comments' texts: when no line looks like a directive or code, add
spaces where needed. -/
def normalizeGroup (group : List (List Char)) : List (List Char) :=
  if group.all commentOk then group.map normalizeComment else group

/-! ## Octal literals and the language-version gate
(`case *ast.BasicLit`, format.go:547-554; `File`, format.go:68-76) -/

/-- `token.Kind` of a basic literal; only `token.INT` is inspected. -/
inductive LitKind
  | intL
  | otherKind
deriving Repr, DecidableEq

/-- `rxOctalInteger.MatchString (value)` (format.go:146): the regexp
`\A0[0-7_]+\z` — a `0` followed by a nonempty run of octal digits and
underscores, and nothing else. -/
def rxOctalInteger (s : List Char) : Bool :=
  match s with
  | '0' :: rest => !rest.isEmpty && rest.all (fun c => ('0' ≤ c && c ≤ '7') || c = '_')
  | _ => false

/-- A parsed semantic version, to the extent `semver.Compare (v, "v1.13")`
inspects it: the numeric `major.minor.patch` triple and whether a prerelease
is present.  Comparison against the release `v1.13` = `v1.13.0` orders by the
triple and, on equal triples, places any prerelease strictly below the
release, so the prerelease's content never matters. -/
structure SemVer where
  major : Nat
  minor : Nat
  patch : Nat
  hasPre : Bool
deriving Repr, DecidableEq

/-- `semver.Compare (v, "v1.13") >= 0` for a parsed version `v`. -/
def semverAtLeast113 (v : SemVer) : Bool :=
  (v.major > 1) ||
  (v.major = 1 && v.minor > 13) ||
  (v.major = 1 && v.minor = 13 && v.patch > 0) ||
  (v.major = 1 && v.minor = 13 && v.patch = 0 && !v.hasPre)

/-- The `case *ast.BasicLit` of `applyPre` (format.go:547-554): when the
language version is at least `v1.13`, rewrite a legacy octal integer literal
`0ddd` to `0o` followed by `value[1:]`. -/
def applyPreBasicLit (langVersion : SemVer) (kind : LitKind) (value : List Char) :
    List Char :=
  if semverAtLeast113 langVersion then
    if kind = LitKind.intL ∧ rxOctalInteger value then
      '0' :: 'o' :: value.drop 1
    else value
  else value

/-- The numeric value of a run of octal digits, underscores skipped (the
value of a Go octal integer literal's digits). -/
def octalVal (digits : List Char) : Nat :=
  digits.foldl (fun a c => if c = '_' then a else a * 8 + (c.toNat - '0'.toNat)) 0

/-- The numeric value of a Go integer literal, for the spellings involved in
the octal rewrite: `0o`/`0O`-prefixed octal, legacy octal (leading zero, all
octal digits/underscores), or decimal otherwise. -/
def intLitValue (s : List Char) : Nat :=
  match s with
  | '0' :: 'o' :: rest => octalVal rest
  | '0' :: 'O' :: rest => octalVal rest
  | _ =>
    if rxOctalInteger s then octalVal s
    else s.foldl (fun a c => if c = '_' then a else a * 10 + (c.toNat - '0'.toNat)) 0

/-! ## `semver.IsValid` / parsing (golang.org/x/mod/semver)

The `semver` package is a dependency, not part of this repository; the
following definitions model its `parse`/`IsValid` functions from their
implementation grammar: `v` MAJOR [`.` MINOR [`.` PATCH [`-` PRERELEASE]
[`+` BUILD]]], numbers without leading zeros, prerelease dot-separated
identifiers of `[0-9A-Za-z-]` (numeric ones without leading zeros), build
dot-separated nonempty identifiers of `[0-9A-Za-z-]`. -/

def isDigit (c : Char) : Bool := '0' ≤ c && c ≤ '9'

/-- `semver.parseInt`: a nonempty run of digits with no leading zero (unless
it is exactly `0`); returns the run and the rest. -/
def parseIntGo (v : List Char) : Option (List Char × List Char) :=
  match v with
  | [] => none
  | c :: _ =>
    if !isDigit c then none
    else
      let t := v.takeWhile isDigit
      if c = '0' && t.length ≠ 1 then none
      else some (t, v.drop t.length)

/-- `semver.isIdentChar`: `[0-9A-Za-z-]`. -/
def isIdentChar (c : Char) : Bool :=
  isLetter c || isDigit c || c = '-'

/-- `semver.isBadNum`: an all-digit identifier longer than one digit starting
with `0`. -/
def isBadNum (s : List Char) : Bool :=
  s.all isDigit && s.length > 1 && s.headD ' ' = '0'

/-- `semver.parsePrerelease`: `-` then dot-separated identifiers (chars in
`[0-9A-Za-z-]`), each nonempty and not a bad number; stops at `+`; returns
the rest. -/
def parsePre (v : List Char) : Option (List Char) :=
  match v with
  | '-' :: body =>
    let t := body.takeWhile (fun c => c ≠ '+')
    if t.all (fun c => isIdentChar c || c = '.') &&
        (t.splitOn '.').all (fun seg => !seg.isEmpty && !isBadNum seg) then
      some (body.drop t.length)
    else none
  | _ => none

/-- `semver.parseBuild`: `+` then dot-separated nonempty identifiers (chars
in `[0-9A-Za-z-]`), consuming the whole rest of the string. -/
def parseBuildGo (v : List Char) : Option (List Char) :=
  match v with
  | '+' :: body =>
    if body.all (fun c => isIdentChar c || c = '.') &&
        (body.splitOn '.').all (fun seg => !seg.isEmpty) then
      some []
    else none
  | _ => none

def digitsToNat (s : List Char) : Nat :=
  s.foldl (fun a c => a * 10 + (c.toNat - '0'.toNat)) 0

/-- `semver.parse`, collecting the data `semver.Compare` against `"v1.13"`
needs: the numeric triple and prerelease presence.  `none` iff
`semver.IsValid` is false. -/
def semverParse (v : List Char) : Option SemVer :=
  match v with
  | 'v' :: rest =>
    match parseIntGo rest with
    | none => none
    | some (ma, r1) =>
      if r1 = [] then some ⟨digitsToNat ma, 0, 0, false⟩
      else
        match r1 with
        | '.' :: r2 =>
          match parseIntGo r2 with
          | none => none
          | some (mi, r3) =>
            if r3 = [] then some ⟨digitsToNat ma, digitsToNat mi, 0, false⟩
            else
              match r3 with
              | '.' :: r4 =>
                match parseIntGo r4 with
                | none => none
                | some (pa, r5) =>
                  let hasPre := r5.headD ' ' = '-'
                  let r6 := if hasPre then parsePre r5 else some r5
                  match r6 with
                  | none => none
                  | some r7 =>
                    let r8 := if r7.headD ' ' = '+' then parseBuildGo r7 else some r7
                    match r8 with
                    | none => none
                    | some r9 =>
                      if r9 = [] then
                        some ⟨digitsToNat ma, digitsToNat mi, digitsToNat pa, hasPre⟩
                      else none
              | _ => none
        | _ => none
  | _ => none

/-- `semver.IsValid`. -/
def isValidSemver (v : List Char) : Bool :=
  (semverParse v).isSome

/-- The version normalization at the top of `File` (format.go:69-73): an
empty `LangVersion` becomes `"v1"`, one not starting with `v` gets the `v`
prefixed. -/
def normalizeLangVersion (s : List Char) : List Char :=
  if s = [] then ['v', '1']
  else if s.headD ' ' ≠ 'v' then 'v' :: s
  else s

/-- The version gate of `File` (format.go:69-76): normalize, then panic
(modelled as `Except.error` carrying the offending string) when the result is
not a valid semantic version. -/
def fileVersionGate (s : List Char) : Except (List Char) (List Char) :=
  let n := normalizeLangVersion s
  if isValidSemver n then Except.ok n else Except.error n

/-- `semver.Compare (langVersion, "v1.13") >= 0` at the string level.  An
invalid version compares below every valid one, hence `false`; the default
`⟨0,0,0,false⟩` used for the `none` case also yields `false`, matching. -/
def semverAtLeast113Str (v : List Char) : Bool :=
  semverAtLeast113 ((semverParse v).getD ⟨0, 0, 0, false⟩)

/-- `File` restricted to the version gate plus the basic-literal rewriting
rule: on a gate failure the panic aborts before any literal is touched
(`Except.error`); otherwise every literal is rewritten under the parsed
version.  `lits` stands for the file's basic literals in traversal order. -/
def fileOctalPass (langVersion : List Char) (lits : List (LitKind × List Char)) :
    Except (List Char) (List (LitKind × List Char)) :=
  match fileVersionGate langVersion with
  | Except.error e => Except.error e
  | Except.ok n =>
    Except.ok (lits.map (fun kv =>
      (kv.1, applyPreBasicLit ((semverParse n).getD ⟨0, 0, 0, false⟩) kv.1 kv.2)))

/-! ## Lemmas about line tables

A well-formed line table is strictly increasing (`token.File` guarantees
this) with nonnegative offsets. -/

/-- The line-table invariant: strictly increasing offsets. -/
def SortedTbl (l : List Int) : Prop := l.Pairwise (· < ·)

instance (l : List Int) : Decidable (SortedTbl l) :=
  inferInstanceAs (Decidable (l.Pairwise (· < ·)))

theorem lineOf_le_length (l : List Int) (off : Int) : lineOf l off ≤ l.length :=
  List.countP_le_length _

theorem lineOf_append (A B : List Int) (off : Int) :
    lineOf (A ++ B) off = lineOf A off + lineOf B off :=
  List.countP_append _ _ _

theorem lineOf_mono (l : List Int) {o₁ o₂ : Int} (h : o₁ ≤ o₂) :
    lineOf l o₁ ≤ lineOf l o₂ := by
  induction l with
  | nil => simp [lineOf]
  | cons x xs ih =>
    simp only [lineOf, List.countP_cons] at *
    have : (decide (x ≤ o₁) = true → decide (x ≤ o₂) = true) := by
      simp only [decide_eq_true_eq]
      exact fun hx => le_trans hx h
    split_ifs with h1 h2 <;> simp_all <;> omega

theorem take_length_takeWhile (p : Int → Bool) (l : List Int) :
    l.take (l.takeWhile p).length = l.takeWhile p := by
  induction l with
  | nil => rfl
  | cons x xs ih =>
    rw [List.takeWhile_cons]
    by_cases h : p x
    · simp only [h, if_true, List.length_cons, List.take_succ_cons, ih]

    · simp [h]

theorem drop_length_takeWhile (p : Int → Bool) (l : List Int) :
    l.drop (l.takeWhile p).length = l.dropWhile p := by
  induction l with
  | nil => rfl
  | cons x xs ih =>
    rw [List.takeWhile_cons, List.dropWhile_cons]
    by_cases h : p x
    · simp only [h, if_true, List.length_cons, List.drop_succ_cons, ih]
    · simp [h]

theorem lineOf_eq_takeWhile_length {l : List Int} (hs : SortedTbl l) (off : Int) :
    lineOf l off = (l.takeWhile (fun s => decide (s ≤ off))).length := by
  induction l with
  | nil => rfl
  | cons x xs ih =>
    obtain ⟨h1, hs⟩ := List.pairwise_cons.mp hs
    by_cases h : x ≤ off
    · simp [lineOf, List.countP_cons, List.takeWhile_cons, h, ← ih hs]
    · have hz : List.countP (fun s => decide (s ≤ off)) xs = 0 := by
        rw [List.countP_eq_zero]
        intro a ha
        simp only [decide_eq_true_eq]
        have := h1 a ha
        omega
      simp [lineOf, List.countP_cons, List.takeWhile_cons, h, hz]

/-- In a sorted table, every entry surviving `dropWhile p` fails a
downward-closed predicate `p`. -/
theorem mem_dropWhile_sorted {p : Int → Bool}
    (hp : ∀ a b : Int, a ≤ b → p b = true → p a = true)
    {l : List Int} (hs : SortedTbl l) {y : Int} (hy : y ∈ l.dropWhile p) :
    p y = false := by
  induction l with
  | nil => simp [List.dropWhile] at hy
  | cons x xs ih =>
    obtain ⟨h1, hs⟩ := List.pairwise_cons.mp hs
    rw [List.dropWhile_cons] at hy
    by_cases h : p x
    · rw [if_pos h] at hy
      exact ih hs hy
    · rw [if_neg h] at hy
      rcases List.mem_cons.mp hy with rfl | hmem
      · exact Bool.eq_false_iff.mpr h
      · by_contra hc
        have hpy : p y = true := Bool.not_eq_false _ |>.mp hc
        exact h (hp x y (le_of_lt (h1 y hmem)) hpy)

theorem mem_take_lineOf {l : List Int} (hs : SortedTbl l) {off y : Int}
    (hy : y ∈ l.take (lineOf l off)) : y ≤ off := by
  rw [lineOf_eq_takeWhile_length hs, take_length_takeWhile] at hy
  simpa using List.mem_takeWhile_imp hy

theorem mem_drop_lineOf {l : List Int} (hs : SortedTbl l) {off y : Int}
    (hy : y ∈ l.drop (lineOf l off)) : off < y := by
  rw [lineOf_eq_takeWhile_length hs, drop_length_takeWhile] at hy
  have := @mem_dropWhile_sorted (fun s => decide (s ≤ off))
    (by intro a b hab hb; simp only [decide_eq_true_eq] at *; omega) _ hs _ hy
  simp only [decide_eq_false_iff_not, not_le] at this
  exact this

theorem lineOf_take_of_le {l : List Int} (hs : SortedTbl l) {off : Int} {a : Nat}
    (ha : a ≤ lineOf l off) : lineOf (l.take a) off = a := by
  have hlen : a ≤ l.length := le_trans ha (lineOf_le_length l off)
  have hmem : ∀ y ∈ l.take a, (fun s => decide (s ≤ off)) y = true := by
    intro y hy
    have : y ∈ l.take (lineOf l off) := by
      have : l.take a = (l.take (lineOf l off)).take a := by
        rw [List.take_take, Nat.min_eq_left ha]
      rw [this] at hy
      exact List.take_subset _ _ hy
    simpa using mem_take_lineOf hs this
  calc lineOf (l.take a) off = (l.take a).length := List.countP_eq_length.mpr hmem
    _ = a := by simp [hlen]

theorem lineOf_drop_of_ge {l : List Int} (hs : SortedTbl l) {off : Int} {b : Nat}
    (hb : lineOf l off ≤ b) : lineOf (l.drop b) off = 0 := by
  rw [lineOf, List.countP_eq_zero]
  intro y hy
  have : y ∈ l.drop (lineOf l off) := by
    have : l.drop b = (l.drop (lineOf l off)).drop (b - lineOf l off) := by
      rw [List.drop_drop, Nat.add_sub_cancel' hb]
    rw [this] at hy
    exact List.drop_subset _ _ hy
  have := mem_drop_lineOf hs this
  simp only [decide_eq_true_eq]
  omega

theorem lineOf_take_append_drop {l : List Int} (hs : SortedTbl l) {off : Int}
    {a b : Nat} (ha : a ≤ lineOf l off) (hb : lineOf l off ≤ b) :
    lineOf (l.take a ++ l.drop b) off = a := by
  rw [lineOf_append, lineOf_take_of_le hs ha, lineOf_drop_of_ge hs hb]
  omega

theorem lineOf_take_of_ge {l : List Int} (hs : SortedTbl l) {off : Int} {a : Nat}
    (ha : lineOf l off ≤ a) : lineOf (l.take a) off = lineOf l off := by
  have hsplit := List.take_append_drop a l
  have := lineOf_append (l.take a) (l.drop a) off
  rw [hsplit] at this
  rw [lineOf_drop_of_ge hs ha] at this
  omega

theorem lineOf_take_append_drop_of_ge {l : List Int} (hs : SortedTbl l) {off : Int}
    {a b : Nat} (ha : lineOf l off ≤ a) (hb : lineOf l off ≤ b) :
    lineOf (l.take a ++ l.drop b) off = lineOf l off := by
  rw [lineOf_append, lineOf_take_of_ge hs ha, lineOf_drop_of_ge hs hb]
  omega

theorem sorted_take_append_drop {l : List Int} (hs : SortedTbl l) {a b : Nat}
    (hab : a ≤ b) : SortedTbl (l.take a ++ l.drop b) := by
  have hsub : (l.take a ++ l.drop b).Sublist l := by
    have h1 : (l.drop b).Sublist (l.drop a) := by
      have : l.drop b = (l.drop a).drop (b - a) := by
        rw [List.drop_drop, Nat.add_sub_cancel' hab]
      rw [this]
      exact List.drop_sublist _ _
    have h2 := h1.append_left (l.take a)
    rwa [List.take_append_drop] at h2
  exact hs.sublist hsub

/-! ### `removeLines` -/

theorem removeLines_of_ge {l : List Int} {a b : Nat} (h : ¬a < b) :
    removeLines l a b = l := by
  rw [removeLines_ite, if_neg h]

theorem removeLines_eq_take_append_drop (l : List Int) (a b : Nat)
    (hab : a ≤ b) (hb : b ≤ l.length) :
    removeLines l a b = l.take a ++ l.drop b := by
  induction b using Nat.strong_induction_on generalizing l with
  | _ b ih =>
    rw [removeLines_ite]
    by_cases h : a < b
    · rw [if_pos h]
      have hlen : (mergeLine l a).length = l.length - 1 := by
        rw [mergeLine, List.length_eraseIdx, if_pos (by omega)]
      have := ih (b - 1) (by omega) (mergeLine l a) (by omega) (by omega)
      rw [this, mergeLine, List.eraseIdx_eq_take_drop_succ]
      have hlena : (l.take a).length = a := by simp; omega
      rw [List.take_append_eq_append_take, List.drop_append_eq_append_drop, hlena]
      have h1 : List.take a (l.take a) = l.take a := by
        rw [List.take_take, Nat.min_self]
      have h2 : List.drop (b - 1) (l.take a) = [] := by
        apply List.drop_eq_nil_of_le
        rw [hlena]; omega
      rw [h1, h2, Nat.sub_self, List.take_zero, List.append_nil, List.nil_append,
        List.drop_drop]
      congr 2
      omega
    · rw [if_neg h]
      have : a = b := by omega
      subst this
      exact (List.take_append_drop a l).symm

/-! ### `addNewline` -/

theorem addNewlineAux_neg {l : List Int} (h : ∀ x ∈ l, 0 ≤ x) :
    addNewlineAux (-1) l = some l := by
  induction l with
  | nil => simp [addNewlineAux]
  | cons x xs ih =>
    have hx : (0 : Int) ≤ x := h x (List.mem_cons_self x xs)
    have h1 : (-1 : Int) ≠ x := by omega
    have h2 : ¬((0 : Int) ≤ -1 ∧ (-1 : Int) < x) := by omega
    rw [addNewlineAux, if_neg h1, if_neg h2, ih (fun y hy => h y (List.mem_cons_of_mem x hy))]
    rfl

theorem addNewlineAux_mem {l : List Int} (hs : SortedTbl l) {off : Int}
    (h : off ∈ l) : addNewlineAux off l = none := by
  induction l with
  | nil => simp at h
  | cons x xs ih =>
    obtain ⟨h1, hs⟩ := List.pairwise_cons.mp hs
    by_cases hx : off = x
    · rw [addNewlineAux, if_pos hx]
    · have hmem : off ∈ xs := (List.mem_cons.mp h).resolve_left hx
      have hlt : x < off := h1 off hmem
      have h2 : ¬((0 : Int) ≤ off ∧ off < x) := by omega
      rw [addNewlineAux, if_neg hx, if_neg h2, ih hs hmem]
      rfl

theorem addNewlineAux_not_mem {l : List Int} (hs : SortedTbl l)
    (hpos : ∀ x ∈ l, 0 ≤ x) {off : Int} (hoff : 0 ≤ off) (h : off ∉ l) :
    addNewlineAux off l =
      some (l.takeWhile (fun s => decide (s < off)) ++
        off :: l.dropWhile (fun s => decide (s < off))) := by
  induction l with
  | nil => simp [addNewlineAux, hoff]
  | cons x xs ih =>
    obtain ⟨h1, hs⟩ := List.pairwise_cons.mp hs
    have hne : off ≠ x := fun hc => h (hc ▸ List.mem_cons_self x xs)
    by_cases hlt : off < x
    · have h2 : (0 : Int) ≤ off ∧ off < x := ⟨hoff, hlt⟩
      rw [addNewlineAux, if_neg hne, if_pos h2,
        addNewlineAux_neg (fun y hy => hpos y (List.mem_cons_of_mem x hy))]
      have ht : decide (x < off) = false := by simp; omega
      rw [List.takeWhile_cons, ht, List.dropWhile_cons, ht]
      rfl
    · have hxlt : x < off := by
        rcases lt_or_eq_of_le (not_lt.mp hlt) with h' | h'
        · exact h'
        · exact absurd h'.symm hne
      have h2 : ¬((0 : Int) ≤ off ∧ off < x) := by omega
      rw [addNewlineAux, if_neg hne, if_neg h2,
        ih hs (fun y hy => hpos y (List.mem_cons_of_mem x hy))
          (fun hc => h (List.mem_cons_of_mem x hc))]
      have ht : decide (x < off) = true := by simp; omega
      rw [List.takeWhile_cons, ht, List.dropWhile_cons, ht]
      rfl

theorem addNewline_mem {l : List Int} (hs : SortedTbl l) {off : Int}
    (h : off ∈ l) : addNewline l off = l := by
  rw [addNewline, addNewlineAux_mem hs h]
  rfl

theorem addNewline_not_mem {l : List Int} (hs : SortedTbl l)
    (hpos : ∀ x ∈ l, 0 ≤ x) {off : Int} (hoff : 0 ≤ off) (h : off ∉ l) :
    addNewline l off =
      l.takeWhile (fun s => decide (s < off)) ++
        off :: l.dropWhile (fun s => decide (s < off)) := by
  rw [addNewline, addNewlineAux_not_mem hs hpos hoff h]
  rfl

theorem lineOf_addNewline_not_mem {l : List Int} (hs : SortedTbl l)
    (hpos : ∀ x ∈ l, 0 ≤ x) {off : Int} (hoff : 0 ≤ off) (h : off ∉ l) (x : Int) :
    lineOf (addNewline l off) x = lineOf l x + if off ≤ x then 1 else 0 := by
  rw [addNewline_not_mem hs hpos hoff h, lineOf_append]
  have : lineOf (off :: l.dropWhile (fun s => decide (s < off))) x =
      lineOf (l.dropWhile (fun s => decide (s < off))) x + if off ≤ x then 1 else 0 := by
    rw [lineOf, List.countP_cons]
    simp [lineOf]
  rw [this]
  have hsplit : lineOf (l.takeWhile (fun s => decide (s < off))) x +
      lineOf (l.dropWhile (fun s => decide (s < off))) x = lineOf l x := by
    rw [← lineOf_append, List.takeWhile_append_dropWhile]
  omega

theorem mem_addNewline {l : List Int} (hs : SortedTbl l)
    (hpos : ∀ x ∈ l, 0 ≤ x) {off : Int} (hoff : 0 ≤ off) (h : off ∉ l) {y : Int} :
    y ∈ addNewline l off ↔ y ∈ l ∨ y = off := by
  rw [addNewline_not_mem hs hpos hoff h]
  constructor
  · intro hy
    rcases List.mem_append.mp hy with h1 | h1
    · exact Or.inl (List.takeWhile_subset _ h1)
    · rcases List.mem_cons.mp h1 with rfl | h2
      · exact Or.inr rfl
      · exact Or.inl (List.dropWhile_subset _ h2)
  · intro hy
    rcases hy with hy | rfl
    · rw [← List.takeWhile_append_dropWhile (fun s => decide (s < off)) l] at hy
      rcases List.mem_append.mp hy with h1 | h1
      · exact List.mem_append.mpr (Or.inl h1)
      · exact List.mem_append.mpr (Or.inr (List.mem_cons_of_mem _ h1))
    · exact List.mem_append.mpr (Or.inr (List.mem_cons_self _ _))

theorem sorted_addNewline {l : List Int} (hs : SortedTbl l)
    (hpos : ∀ x ∈ l, 0 ≤ x) {off : Int} (hoff : 0 ≤ off) (h : off ∉ l) :
    SortedTbl (addNewline l off) := by
  rw [addNewline_not_mem hs hpos hoff h]
  rw [SortedTbl, List.pairwise_append]
  refine ⟨hs.sublist (List.takeWhile_sublist _), ?_, ?_⟩
  · rw [List.pairwise_cons]
    refine ⟨fun y hy => ?_, hs.sublist (List.dropWhile_sublist _)⟩
    have := @mem_dropWhile_sorted (fun s => decide (s < off))
      (by intro a b hab hb; simp only [decide_eq_true_eq] at *; omega) _ hs _ hy
    simp only [decide_eq_false_iff_not, not_lt] at this
    rcases lt_or_eq_of_le this with h' | h'
    · exact h'
    · exact absurd h' (fun hc => h (hc ▸ List.dropWhile_subset _ hy))
  · intro a ha b hb
    have ha' : a < off := by simpa using List.mem_takeWhile_imp ha
    rcases List.mem_cons.mp hb with rfl | hb'
    · exact ha'
    · have := @mem_dropWhile_sorted (fun s => decide (s < off))
        (by intro a b hab hb; simp only [decide_eq_true_eq] at *; omega) _ hs _ hb'
      simp only [decide_eq_false_iff_not, not_lt] at this
      omega

theorem nonneg_addNewline {l : List Int} (hs : SortedTbl l)
    (hpos : ∀ x ∈ l, 0 ≤ x) {off : Int} (hoff : 0 ≤ off) (h : off ∉ l) :
    ∀ y ∈ addNewline l off, 0 ≤ y := by
  intro y hy
  rcases (mem_addNewline hs hpos hoff h).mp hy with h1 | rfl
  · exact hpos y h1
  · exact hoff

/-! ### `removeLinesBetween` -/

theorem removeLinesBetween_eq {l : List Int} {p q : Int}
    (h : lineOf l p < lineOf l q) :
    removeLinesBetween l p q = l.take (lineOf l p + 1) ++ l.drop (lineOf l q) :=
  removeLines_eq_take_append_drop l _ _ (by omega) (lineOf_le_length l q)

theorem removeLinesBetween_noop {l : List Int} {p q : Int}
    (h : lineOf l q ≤ lineOf l p + 1) :
    removeLinesBetween l p q = l :=
  removeLines_of_ge (by omega)

/-- After `removeLinesBetween l p q` (with `q` on a strictly later line than
`p`), `q`'s line is `p`'s line plus one, positions at or before `p`'s line
keep their line, and positions at or after `q`'s old line start land on
`lineOf l p + 1`. -/
theorem lineOf_removeLinesBetween {l : List Int} (hs : SortedTbl l) {p q : Int}
    (h : lineOf l p < lineOf l q) :
    lineOf (removeLinesBetween l p q) q = lineOf l p + 1 ∧
    (∀ x : Int, lineOf l x ≤ lineOf l p + 1 →
      lineOf (removeLinesBetween l p q) x = lineOf l x) ∧
    SortedTbl (removeLinesBetween l p q) := by
  rw [removeLinesBetween_eq h]
  refine ⟨lineOf_take_append_drop hs (by omega) (le_refl _), fun x hx => ?_, ?_⟩
  · exact lineOf_take_append_drop_of_ge hs hx (by omega)
  · exact sorted_take_append_drop hs (by omega)

/-! ## C9: the line-break insertion invariant -/

/-- **C9.** `addNewline` preserves the line-table invariant: inserting a break
at an offset where a line already starts leaves the table unchanged; otherwise
the offset is inserted so that the table stays strictly increasing with no
duplicates (its entries are exactly the old ones plus the new offset), and
every position still maps to a valid line (a 1-based line number of the new
table, lines at or after the break shifted up by one). -/
theorem addNewline_preserves_invariant (l : List Int) (off : Int)
    (hs : SortedTbl l) (hpos : ∀ x ∈ l, 0 ≤ x) (hoff : 0 ≤ off) :
    (off ∈ l → addNewline l off = l) ∧
    (off ∉ l →
      SortedTbl (addNewline l off) ∧
      (∀ y : Int, y ∈ addNewline l off ↔ y ∈ l ∨ y = off) ∧
      (∀ x : Int, lineOf (addNewline l off) x =
        lineOf l x + if off ≤ x then 1 else 0) ∧
      (∀ x : Int, 0 ≤ x → (0 : Int) ∈ l →
        1 ≤ lineOf (addNewline l off) x ∧
        lineOf (addNewline l off) x ≤ (addNewline l off).length)) := by
  refine ⟨fun hmem => addNewline_mem hs hmem, fun hmem => ?_⟩
  refine ⟨sorted_addNewline hs hpos hoff hmem,
    fun y => mem_addNewline hs hpos hoff hmem,
    fun x => lineOf_addNewline_not_mem hs hpos hoff hmem x, fun x hx h0 => ?_⟩
  constructor
  · have h0' : (0 : Int) ∈ addNewline l off :=
      (mem_addNewline hs hpos hoff hmem).mpr (Or.inl h0)
    have : 0 < lineOf (addNewline l off) x := by
      rw [lineOf, List.countP_pos]
      exact ⟨0, h0', by simpa using hx⟩
    omega
  · exact lineOf_le_length _ _

/-- Witness for C9 at a concrete table: `[0, 5]` with break offset `7`
(absent: inserted, line of offset `8` shifts from 2 to 3) and with break
offset `5` (present: no-op). -/
theorem addNewline_preserves_invariant_witness :
    addNewline [0, 5] 5 = [0, 5] ∧
    lineOf (addNewline [0, 5] 7) 8 = lineOf [(0 : Int), 5] 8 + 1 ∧
    SortedTbl (addNewline [0, 5] 7) := by
  have h5 := addNewline_preserves_invariant [0, 5] 5 (by decide) (by decide) (by decide)
  have h7 := addNewline_preserves_invariant [0, 5] 7 (by decide) (by decide) (by decide)
  refine ⟨h5.1 (by decide), ?_, (h7.2 (by decide)).1⟩
  have := ((h7.2 (by decide)).2.2.1) 8
  rw [this, if_pos (by norm_num)]

/-! ## C6: octal literal modernization -/

/-- **C6.** For an integer literal matching the legacy octal shape, when the
language version is at least `v1.13` the literal is rewritten to the
`0o`-prefixed spelling with the digits after the leading zero preserved, and
the numeric value is unchanged; below `v1.13` it is left unchanged. -/
theorem rxOctal_shape {s : List Char} (h : rxOctalInteger s = true) :
    ∃ rest, s = '0' :: rest ∧ rest ≠ [] ∧
      ∀ c ∈ rest, (('0' ≤ c ∧ c ≤ '7') ∨ c = '_') := by
  rw [rxOctalInteger.eq_def] at h
  split at h
  · rename_i rest
    refine ⟨rest, rfl, ?_, ?_⟩
    · simp only [Bool.and_eq_true, Bool.not_eq_true'] at h
      simpa using h.1
    · intro c hc
      simp only [Bool.and_eq_true, List.all_eq_true] at h
      have := h.2 c hc
      simpa using this
  · exact absurd h (by simp)

theorem octal_rewrite_correct (v : SemVer) (value : List Char)
    (hoct : rxOctalInteger value = true) :
    (semverAtLeast113 v = true →
      applyPreBasicLit v LitKind.intL value = '0' :: 'o' :: value.drop 1 ∧
      intLitValue (applyPreBasicLit v LitKind.intL value) = intLitValue value) ∧
    (semverAtLeast113 v = false →
      ∀ kind : LitKind, applyPreBasicLit v kind value = value) := by
  constructor
  · intro hge
    have hrw : applyPreBasicLit v LitKind.intL value = '0' :: 'o' :: value.drop 1 := by
      rw [applyPreBasicLit, if_pos hge, if_pos ⟨rfl, hoct⟩]
    refine ⟨hrw, ?_⟩
    rw [hrw]
    obtain ⟨rest, rfl, hne, hall⟩ := rxOctal_shape hoct
    simp only [List.drop_succ_cons, List.drop_zero]
    -- the rewritten literal parses in the `0o` branch; the original falls
    -- to the legacy-octal branch (its second character is never `o`/`O`)
    have hval : intLitValue ('0' :: 'o' :: rest) = octalVal rest := rfl
    rw [hval]
    obtain ⟨c, rest', rfl⟩ : ∃ c rest', rest = c :: rest' := by
      cases rest with
      | nil => exact absurd rfl hne
      | cons c rest' => exact ⟨c, rest', rfl⟩
    have hc := hall c (List.mem_cons_self c rest')
    have hco : c ≠ 'o' ∧ c ≠ 'O' := by
      rcases hc with h' | h'
      · constructor <;> (intro hc'; subst hc'; revert h'; decide)
      · subst h'
        decide
    have hleg : intLitValue ('0' :: c :: rest') = octalVal ('0' :: c :: rest') := by
      rw [intLitValue.eq_def]
      split
    -- LHS cannot match the `0o`/`0O` patterns because `c` is an octal digit
    -- or underscore
      · rename_i heq
        injection heq with h1 h2
        injection h2 with h3 h4
        exact absurd h3 hco.1
      · rename_i heq
        injection heq with h1 h2
        injection h2 with h3 h4
        exact absurd h3 hco.2
      · rw [if_pos hoct]
    rw [hleg]
    -- a leading zero does not change the octal value
    show octalVal (c :: rest') =
      List.foldl (fun a ch => if ch = '_' then a else a * 8 + (ch.toNat - '0'.toNat))
        (if ('0' : Char) = '_' then 0 else 0 * 8 + ('0'.toNat - '0'.toNat)) (c :: rest')
    norm_num [octalVal]
  · intro hlt kind
    rw [applyPreBasicLit, if_neg (by simp [hlt])]

/-- Witness for C6: `0755` under `v1.14` becomes `0o755` (value 493 both
ways); under `v1` it stays `0755`. -/
theorem octal_rewrite_correct_witness :
    applyPreBasicLit ⟨1, 14, 0, false⟩ LitKind.intL ['0', '7', '5', '5'] =
      ['0', 'o', '7', '5', '5'] ∧
    intLitValue ['0', 'o', '7', '5', '5'] = intLitValue ['0', '7', '5', '5'] ∧
    applyPreBasicLit ⟨1, 0, 0, false⟩ LitKind.intL ['0', '7', '5', '5'] =
      ['0', '7', '5', '5'] := by
  have h14 := octal_rewrite_correct ⟨1, 14, 0, false⟩ ['0', '7', '5', '5'] (by decide)
  have h1 := octal_rewrite_correct ⟨1, 0, 0, false⟩ ['0', '7', '5', '5'] (by decide)
  obtain ⟨ha, hb⟩ := h14.1 (by decide)
  refine ⟨by simpa using ha, ?_, h1.2 (by decide) LitKind.intL⟩
  rw [ha] at hb
  simpa using hb

/-! ## C10: the `File` language-version gate -/

/-- **C10.** `File` treats an empty `LangVersion` as `"v1"` (the most
conservative version) and prefixes a missing leading `v`; when the resulting
string is not a valid semantic version it panics (modelled as `Except.error`)
before applying any formatting rule, and otherwise all literals are processed
under the parsed version. -/
theorem fileVersionGate_behavior (s : List Char) (lits : List (LitKind × List Char)) :
    (s = [] → fileVersionGate s = Except.ok ['v', '1']) ∧
    (s ≠ [] → s.headD ' ' ≠ 'v' → normalizeLangVersion s = 'v' :: s) ∧
    (isValidSemver (normalizeLangVersion s) = false →
      fileOctalPass s lits = Except.error (normalizeLangVersion s)) ∧
    (isValidSemver (normalizeLangVersion s) = true →
      fileOctalPass s lits = Except.ok (lits.map (fun kv =>
        (kv.1, applyPreBasicLit
          ((semverParse (normalizeLangVersion s)).getD ⟨0, 0, 0, false⟩)
          kv.1 kv.2)))) := by
  refine ⟨?_, ?_, ?_, ?_⟩
  · intro h
    subst h
    rfl
  · intro h1 h2
    rw [normalizeLangVersion, if_neg h1, if_pos h2]
  · intro h
    rw [fileOctalPass, fileVersionGate]
    simp only [h, Bool.false_eq_true, if_false]
  · intro h
    rw [fileOctalPass, fileVersionGate]
    simp only [h, if_true]

/-- Witness for C10: the empty version is accepted as `v1`, `"1.14"` is
prefixed and accepted, and the invalid `"foo"` aborts the pass with no
literal rewritten. -/
theorem fileVersionGate_behavior_witness :
    fileVersionGate [] = Except.ok ['v', '1'] ∧
    normalizeLangVersion ['1', '.', '1', '4'] = ['v', '1', '.', '1', '4'] ∧
    fileOctalPass ['f', 'o', 'o'] [(LitKind.intL, ['0', '7'])] =
      Except.error ['v', 'f', 'o', 'o'] := by
  have h0 := fileVersionGate_behavior [] [(LitKind.intL, ['0', '7'])]
  have h1 := fileVersionGate_behavior ['1', '.', '1', '4'] [(LitKind.intL, ['0', '7'])]
  have h2 := fileVersionGate_behavior ['f', 'o', 'o'] [(LitKind.intL, ['0', '7'])]
  exact ⟨h0.1 rfl, h1.2.1 (by decide) (by decide), h2.2.2.1 (by decide)⟩

/-! ## C4: comment spacing normalization -/

/-- **C4 counterexample.**  The claim says a line comment whose first
printable character is a space ends up with *exactly one* space after the
marker.  The comment `//  x` (two spaces) is in the claim's class
(a `//` comment, not a directive, first character a space), yet the rule
leaves it unchanged with two spaces after the marker: the code only inserts a
space when the body starts with a non-space, and never collapses existing
spaces. -/
theorem comment_space_counterexample :
    commentOk ('/' :: '/' :: ' ' :: ' ' :: ['x']) = true ∧
    normalizeGroup [('/' :: '/' :: ' ' :: ' ' :: ['x'])] =
      [('/' :: '/' :: ' ' :: ' ' :: ['x'])] ∧
    (trimSlashes ('/' :: '/' :: ' ' :: ' ' :: ['x'])).takeWhile
      (fun c => decide (c = ' ')) = [' ', ' '] := by
  decide

/-- **C4 amended.**  For every line comment of an eligible group (no
`/*`-comments, directives, or code look-alikes), the rule guarantees *at
least* one whitespace character after the marker: a body starting with a
non-space gets exactly `"// "` prepended to it, and a body already starting
with whitespace is left unchanged (so multiple spaces survive). -/
theorem comment_space_amended (group : List (List Char))
    (h : group.all commentOk = true) :
    normalizeGroup group = group.map normalizeComment ∧
    ∀ text ∈ group,
      (isSpace (firstRune (trimSlashes text)) = false →
        normalizeComment text = '/' :: '/' :: ' ' :: trimSlashes text) ∧
      (isSpace (firstRune (trimSlashes text)) = true →
        normalizeComment text = text) ∧
      isSpace (firstRune (trimSlashes (normalizeComment text))) = true := by
  refine ⟨by rw [normalizeGroup, if_pos h], fun text ht => ⟨?_, ?_, ?_⟩⟩
  · intro hsp
    rw [normalizeComment]
    simp only [hsp, Bool.not_false, if_true]
  · intro hsp
    rw [normalizeComment]
    simp only [hsp, Bool.not_true]
    rfl
  · by_cases hsp : isSpace (firstRune (trimSlashes text)) = true
    · rw [normalizeComment]
      simp only [hsp, Bool.not_true]
      exact hsp
    · rw [normalizeComment]
      simp only [Bool.not_eq_true] at hsp
      simp only [hsp, Bool.not_false, if_true]
      rfl

/-- Witness for C4 (amended): the group `["//hello"]` is eligible and gets a
single space inserted. -/
theorem comment_space_amended_witness :
    normalizeGroup [('/' :: '/' :: ['h', 'i'])] =
      [('/' :: '/' :: ' ' :: ['h', 'i'])] ∧
    isSpace (firstRune (trimSlashes
      (normalizeComment ('/' :: '/' :: ['h', 'i'])))) = true := by
  have h := comment_space_amended [('/' :: '/' :: ['h', 'i'])] (by decide)
  obtain ⟨h1, h2⟩ := h
  have h3 := h2 ('/' :: '/' :: ['h', 'i']) (List.mem_cons_self _ _)
  refine ⟨?_, h3.2.2⟩
  rw [h1]
  simp only [List.map_cons, List.map_nil]
  rw [h3.1 (by decide)]
  rfl

/-! ## C7: the inline-comment query -/

theorem goSearch_le (n : Nat) (p : Nat → Bool) : goSearch n p ≤ n := by
  rw [goSearch]
  simpa using @List.findIdx_le_length _ p (List.range n)

theorem goSearch_pred {n : Nat} {p : Nat → Bool} (h : goSearch n p < n) :
    p (goSearch n p) = true := by
  have hlt : List.findIdx p (List.range n) < (List.range n).length := by
    simpa [goSearch] using h
  have := @List.findIdx_getElem _ p (List.range n) hlt
  rw [List.getElem_range] at this
  simpa [goSearch] using this

theorem goSearch_min {n : Nat} {p : Nat → Bool} {j : Nat}
    (h : j < goSearch n p) (hj : j < n) : p j = false := by
  have hlt : j < (List.range n).length := by simpa using hj
  have := @List.not_of_lt_findIdx _ p (List.range n) j
    (by simpa [goSearch] using h)
  rwa [List.getElem_range] at this

/-- **C7.** `inlineComment` locates the first comment group at or after
`pos` (all earlier groups lie strictly before `pos`) and returns that group's
*first* token exactly when that token's line equals the line of `pos`;
otherwise it returns `none` — it never returns a later token of the group.
Hypotheses: each group's comments start at the group's position (`Pos()` of an
`ast.CommentGroup` is its first comment's position, and comments within a
group are position-ordered), and groups are nonempty. -/
theorem inlineComment_first_token (groups : List CommentGroup) (lines : List Int)
    (pos : Int)
    (hg : ∀ g ∈ groups, ∀ c ∈ g.list, g.pos ≤ c.pos)
    (hne : ∀ g ∈ groups, g.list ≠ []) :
    (goSearch groups.length (fun i => decide ((groups.getD i default).pos ≥ pos)) =
        groups.length → inlineComment groups lines pos = none) ∧
    (∀ hi : goSearch groups.length
        (fun i => decide ((groups.getD i default).pos ≥ pos)) < groups.length,
      pos ≤ (groups.get ⟨_, hi⟩).pos ∧
      (∀ (j : Nat) (hj : j < groups.length),
        j < goSearch groups.length
          (fun i => decide ((groups.getD i default).pos ≥ pos)) →
        (groups.get ⟨j, hj⟩).pos < pos) ∧
      inlineComment groups lines pos =
        (if lineOf lines ((groups.get ⟨_, hi⟩).list.headD default).pos =
            lineOf lines pos
         then some ((groups.get ⟨_, hi⟩).list.headD default)
         else none)) := by
  constructor
  · intro h
    rw [inlineComment, dif_neg (by omega)]
  · intro hi
    have hpred := goSearch_pred hi
    have hgetD : (groups.getD (goSearch groups.length
        (fun i => decide ((groups.getD i default).pos ≥ pos))) default) =
        groups.get ⟨_, hi⟩ := by
      rw [List.getD_eq_getElem?_getD, List.getElem?_eq_getElem hi]
      rfl
    rw [hgetD] at hpred
    have hgp : pos ≤ (groups.get ⟨_, hi⟩).pos := by
      simpa [ge_iff_le] using hpred
    refine ⟨hgp, fun j hj hjlt => ?_, ?_⟩
    · have := goSearch_min hjlt hj
      have hgetDj : (groups.getD j default) = groups.get ⟨j, hj⟩ := by
        rw [List.getD_eq_getElem?_getD, List.getElem?_eq_getElem hj]
        rfl
      rw [hgetDj] at this
      simpa [ge_iff_le] using this
    · rw [inlineComment, dif_pos hi]
      set g := groups.get ⟨_, hi⟩ with hgdef
      have hgmem : g ∈ groups := List.get_mem groups _ _
      obtain ⟨c0, cs, hlist⟩ : ∃ c0 cs, g.list = c0 :: cs := by
        cases hcase : g.list with
        | nil => exact absurd hcase (hne g hgmem)
        | cons c0 cs => exact ⟨c0, cs, rfl⟩
      rw [hlist]
      have hhead : g.list.headD default = c0 := by rw [hlist]; rfl
      show List.find? (fun c => decide (lineOf lines c.pos = lineOf lines pos))
          (c0 :: cs) =
        if lineOf lines c0.pos = lineOf lines pos then some c0 else none
      have hposc0 : g.pos = c0.pos := by
        rw [CommentGroup.pos, hhead]
      by_cases hline : lineOf lines c0.pos = lineOf lines pos
      · rw [if_pos hline]
        rw [List.find?_cons_of_pos _ (by simpa using hline)]
      · rw [if_neg hline]
        rw [List.find?_cons_of_neg _ (by simpa using hline)]
        rw [List.find?_eq_none]
        intro c hc
        simp only [decide_eq_true_eq]
        -- every later token of the group sits on a line strictly after
        -- the line of `pos`
        have hcpos : c0.pos ≤ c.pos := by
          rw [← hposc0]
          exact hg g hgmem c (by rw [hlist]; exact List.mem_cons_of_mem _ hc)
        have h1 : lineOf lines pos ≤ lineOf lines c0.pos :=
          lineOf_mono lines (hposc0 ▸ hgp)
        have h2 : lineOf lines c0.pos ≤ lineOf lines c.pos :=
          lineOf_mono lines hcpos
        omega

/-- Witness for C7: a two-comment group starting on the query's line returns
the first token; starting on a later line it returns none. -/
theorem inlineComment_first_token_witness :
    inlineComment [⟨[⟨20, 30, []⟩, ⟨31, 40, []⟩]⟩] [0, 10, 25, 45] 12 =
      some ⟨20, 30, []⟩ ∧
    inlineComment [⟨[⟨20, 30, []⟩, ⟨31, 40, []⟩]⟩] [0, 10, 19, 45] 12 = none := by
  have h1 := inlineComment_first_token [⟨[⟨20, 30, []⟩, ⟨31, 40, []⟩]⟩]
    [0, 10, 25, 45] 12 (by decide) (by decide)
  have h2 := inlineComment_first_token [⟨[⟨20, 30, []⟩, ⟨31, 40, []⟩]⟩]
    [0, 10, 19, 45] 12 (by decide) (by decide)
  constructor
  · have := (h1.2 (by decide)).2.2
    rw [this]
    decide
  · have := (h2.2 (by decide)).2.2
    rw [this]
    decide

/-! ## C8: collapsing the blank line before an `err != nil` guard -/

theorem identEqual_iff (e : GoExpr) (n : String) :
    identEqual e n = true ↔ e = GoExpr.ident n := by
  cases e <;> simp [identEqual]

/-- Adjacent pairs of a statement list decompose at any interior element. -/
theorem zipPairs_append (xs : List GoStmt) (y : GoStmt) (ys : List GoStmt) :
    (xs ++ y :: ys).zip ((xs ++ y :: ys).drop 1) =
      (xs ++ [y]).zip ((xs ++ [y]).drop 1) ++ (y :: ys).zip ys := by
  induction xs with
  | nil => rfl
  | cons x xs ih =>
    cases xs with
    | nil => rfl
    | cons x2 xs2 =>
      have := ih
      simp only [List.cons_append, List.drop_succ_cons, List.drop_zero] at *
      rw [List.zip_cons_cons, List.zip_cons_cons, this]
      rfl

theorem errGuard_foldl_id (ps : List (GoStmt × GoStmt)) (t : List Int)
    (h : ∀ p ∈ ps, errGuardPair p.1 p.2 = false) :
    ps.foldl (fun t pr => if errGuardPair pr.1 pr.2 then
      removeLinesBetween t pr.1.endP pr.2.pos else t) t = t := by
  induction ps generalizing t with
  | nil => rfl
  | cons p ps ih =>
    rw [List.foldl_cons, if_neg (by simp [h p (List.mem_cons_self p ps)])]
    exact ih t (fun q hq => h q (List.mem_cons_of_mem p hq))

/-- A statement list with no matching adjacent pair leaves the table
untouched. -/
theorem stmts_of_no_match (tbl : List Int) (list : List GoStmt)
    (h : ∀ p ∈ list.zip (list.drop 1), errGuardPair p.1 p.2 = false) :
    stmts tbl list = tbl := by
  rw [stmts]
  exact errGuard_foldl_id _ tbl h

/-- The last-left-hand-side check of `stmts`. -/
theorem lastCheck_iff (lhs2 : List GoExpr) :
    (match lhs2.getLast? with
      | some e => identEqual e "err"
      | none => false) = true ↔
      lhs2.getLast? = some (GoExpr.ident "err") := by
  cases hl : lhs2.getLast? with
  | none => simp
  | some e2 => simp [identEqual_iff]

/-- The condition check of `stmts`: the `if` must have no init, no else, and
the exact comparison `err != nil`. -/
theorem condCheck_iff (hasInit hasElse : Bool) (cond : GoExpr) :
    (match cond with
      | GoExpr.binary op x y =>
        !hasInit && !hasElse && decide (op = BinOp.neq) &&
        identEqual x "err" && identEqual y "nil"
      | _ => false) = true ↔
      (hasInit = false ∧ hasElse = false ∧
        cond = GoExpr.binary BinOp.neq (GoExpr.ident "err") (GoExpr.ident "nil")) := by
  cases cond with
  | binary op x y =>
    simp only [Bool.and_eq_true, Bool.not_eq_true', decide_eq_true_eq,
      identEqual_iff, GoExpr.binary.injEq]
    constructor
    · rintro ⟨⟨⟨⟨h1, h2⟩, h3⟩, h4⟩, h5⟩
      exact ⟨h1, h2, h3, h4, h5⟩
    · rintro ⟨h1, h2, h3, h4, h5⟩
      exact ⟨⟨⟨⟨h1, h2⟩, h3⟩, h4⟩, h5⟩
  | ident n => simp
  | otherExpr => simp

/-- **C8.** In a statement list, a `:=` assignment whose last left-hand side
is `err`, immediately followed by a plain `if err != nil` guard (no init, no
else), has every blank line between the two removed — the guard ends up
exactly one line after the assignment's end — while pairs whose guard has an
init clause, an else branch, or a condition other than `err != nil` never
match, and a list without matching pairs leaves the line table untouched. -/
theorem errGuard_blank_line_collapse
    (tbl : List Int) (hs : SortedTbl tbl)
    (lhs : List GoExpr) (ap ae gp ge : Int)
    (hlast : lhs.getLast? = some (GoExpr.ident "err"))
    (pre post : List GoStmt)
    (hpre : ∀ p ∈ (pre ++ [GoStmt.assign lhs AssignTok.define ap ae]).zip
        ((pre ++ [GoStmt.assign lhs AssignTok.define ap ae]).drop 1),
      errGuardPair p.1 p.2 = false)
    (hpost : ∀ p ∈ (GoStmt.ifS false
        (GoExpr.binary BinOp.neq (GoExpr.ident "err") (GoExpr.ident "nil")) false
        gp ge :: post).zip post, errGuardPair p.1 p.2 = false)
    (hline : lineOf tbl ae < lineOf tbl gp) :
    stmts tbl (pre ++ GoStmt.assign lhs AssignTok.define ap ae ::
        GoStmt.ifS false
          (GoExpr.binary BinOp.neq (GoExpr.ident "err") (GoExpr.ident "nil")) false
          gp ge :: post) =
      removeLinesBetween tbl ae gp ∧
    lineOf (removeLinesBetween tbl ae gp) gp = lineOf tbl ae + 1 ∧
    lineOf (removeLinesBetween tbl ae gp) ae = lineOf tbl ae ∧
    (∀ (lhs2 : List GoExpr) (tok2 : AssignTok) (ap2 ae2 : Int)
        (hasInit hasElse : Bool) (cond : GoExpr) (p e : Int),
      errGuardPair (GoStmt.assign lhs2 tok2 ap2 ae2)
          (GoStmt.ifS hasInit cond hasElse p e) = true ↔
        (tok2 = AssignTok.define ∧
          lhs2.getLast? = some (GoExpr.ident "err") ∧
          hasInit = false ∧ hasElse = false ∧
          cond = GoExpr.binary BinOp.neq (GoExpr.ident "err") (GoExpr.ident "nil"))) ∧
    (∀ list : List GoStmt,
      (∀ p ∈ list.zip (list.drop 1), errGuardPair p.1 p.2 = false) →
      stmts tbl list = tbl) := by
  have hmatch : errGuardPair (GoStmt.assign lhs AssignTok.define ap ae)
      (GoStmt.ifS false
        (GoExpr.binary BinOp.neq (GoExpr.ident "err") (GoExpr.ident "nil")) false
        gp ge) = true := by
    rw [errGuardPair]
    simp [hlast, identEqual]
  refine ⟨?_, (lineOf_removeLinesBetween hs hline).1,
    (lineOf_removeLinesBetween hs hline).2.1 ae (by omega), ?_, ?_⟩
  · rw [stmts, zipPairs_append, List.foldl_append,
      errGuard_foldl_id _ tbl hpre, List.zip_cons_cons, List.foldl_cons,
      if_pos hmatch]
    exact errGuard_foldl_id _ _ hpost
  · intro lhs2 tok2 ap2 ae2 hasInit hasElse cond p e
    cases cond with
    | binary op x y =>
      rw [errGuardPair]
      simp only [Bool.and_eq_true, Bool.not_eq_true', decide_eq_true_eq,
        identEqual_iff, GoExpr.binary.injEq]
      rw [lastCheck_iff]
      tauto
    | ident n =>
      rw [errGuardPair]
      · simp
      · intro op x y h
        cases h
    | otherExpr =>
      rw [errGuardPair]
      · simp
      · intro op x y h
        cases h
  · exact fun list h => stmts_of_no_match tbl list h

/-- Witness for C8: `a, err := f()` followed after a blank line by
`if err != nil` has the blank line removed. -/
theorem errGuard_blank_line_collapse_witness :
    stmts [0, 14, 15]
      [GoStmt.assign [GoExpr.otherExpr, GoExpr.ident "err"] AssignTok.define 0 13,
       GoStmt.ifS false
         (GoExpr.binary BinOp.neq (GoExpr.ident "err") (GoExpr.ident "nil")) false
         15 40] = [0, 14] ∧
    lineOf [(0 : Int), 14] 15 = lineOf [(0 : Int), 14, 15] 13 + 1 := by
  have h := errGuard_blank_line_collapse [0, 14, 15] (by decide)
    [GoExpr.otherExpr, GoExpr.ident "err"] 0 13 15 40 (by decide) [] []
    (by decide) (by decide) (by decide)
  obtain ⟨h1, h2, -⟩ := h
  constructor
  · rw [show ([GoStmt.assign [GoExpr.otherExpr, GoExpr.ident "err"]
      AssignTok.define 0 13,
      GoStmt.ifS false
        (GoExpr.binary BinOp.neq (GoExpr.ident "err") (GoExpr.ident "nil")) false
        15 40] : List GoStmt) = [] ++ GoStmt.assign [GoExpr.otherExpr,
          GoExpr.ident "err"] AssignTok.define 0 13 ::
          GoStmt.ifS false (GoExpr.binary BinOp.neq (GoExpr.ident "err")
            (GoExpr.ident "nil")) false 15 40 :: [] from rfl, h1]
    decide
  · have h13 : GoStmt.endP (GoStmt.assign [GoExpr.otherExpr, GoExpr.ident "err"]
        AssignTok.define 0 13) = 13 := rfl
    have := h2
    rw [show removeLinesBetween [0, 14, 15] 13 15 = [0, 14] from by decide] at this
    simpa using this

/-! ## C2: the block rule and the short-line threshold -/

/-- Counting after removals below the position's line: positions on a line at
or after the removed range drop by the number of removed line starts. -/
theorem lineOf_take_append_drop_sub {l : List Int} (hs : SortedTbl l) {off : Int}
    {a b : Nat} (hab : a ≤ b) (hb : b ≤ lineOf l off) :
    lineOf (l.take a ++ l.drop b) off = a + (lineOf l off - b) := by
  rw [lineOf_append, lineOf_take_of_le hs (le_trans hab hb)]
  have hsplit : lineOf l off = lineOf (l.take b) off + lineOf (l.drop b) off := by
    rw [← lineOf_append, List.take_append_drop]
  rw [lineOf_take_of_le hs hb] at hsplit
  omega

/-- Lines strictly after a removed interior range drop by its width. -/
theorem lineOf_removeLinesBetween_after {l : List Int} (hs : SortedTbl l)
    {p q : Int} (h : lineOf l p < lineOf l q) (x : Int)
    (hx : lineOf l q ≤ lineOf l x) :
    lineOf (removeLinesBetween l p q) x =
      lineOf l p + 1 + (lineOf l x - lineOf l q) := by
  rw [removeLinesBetween_eq h]
  exact lineOf_take_append_drop_sub hs (by omega) hx

/-- **C2 counterexample.**  A single-statement block (`if x {\n\n\ty()\n\n}`,
table `[0,7,8,13,14]`, braces at offsets 5 and 14, statement at 9..12) whose
rendered body is far below the 60-byte threshold.  The claim says such a block
is collapsed onto a single line; the block rule instead only trims the blank
lines around the body: afterwards the braces and the body still sit on three
distinct lines — no block is ever collapsed onto a single line, and the rule
never computes a rendered length at all. -/
theorem block_collapse_counterexample :
    applyPreBlockStmt [0, 7, 8, 13, 14] [] ⟨5, 14, [GoStmt.otherStmt 9 12]⟩
      BlockParent.otherParent = [0, 7, 13] ∧
    lineOf [(0 : Int), 7, 13] 5 = 1 ∧
    lineOf [(0 : Int), 7, 13] 9 = 2 ∧
    lineOf [(0 : Int), 7, 13] 14 = 3 := by
  decide

/-- **C2 amended.**  For a block body that contains exactly one statement
(under a plain parent, or under an `if`/`for` whose condition is single-line)
or is a function body with a single-line signature (any statement count), the
rule unconditionally removes the blank lines between the opening brace and the
body and between the body and the closing brace — no rendered-length threshold
is involved — leaving the body on its own line(s): the body starts exactly one
line after the opening brace, the closing brace sits exactly one line after
the body's end, and the block is never put on a single line. -/
theorem block_blank_line_trim :
    (∀ (tbl : List Int), SortedTbl tbl →
      ∀ (lb rb : Int) (s : GoStmt) (groups : List CommentGroup),
      commentsBetween groups lb rb = [] →
      s.pos ≤ s.endP →
      lineOf tbl lb < lineOf tbl s.pos →
      lineOf tbl s.endP < lineOf tbl rb →
      applyPreBlockStmt tbl groups ⟨lb, rb, [s]⟩ BlockParent.otherParent =
        removeLinesBetween (removeLinesBetween tbl s.endP rb) lb s.pos ∧
      lineOf (applyPreBlockStmt tbl groups ⟨lb, rb, [s]⟩ BlockParent.otherParent)
          s.pos = lineOf tbl lb + 1 ∧
      lineOf (applyPreBlockStmt tbl groups ⟨lb, rb, [s]⟩ BlockParent.otherParent)
          rb =
        lineOf (applyPreBlockStmt tbl groups ⟨lb, rb, [s]⟩ BlockParent.otherParent)
          s.endP + 1 ∧
      lineOf (applyPreBlockStmt tbl groups ⟨lb, rb, [s]⟩ BlockParent.otherParent)
          lb <
        lineOf (applyPreBlockStmt tbl groups ⟨lb, rb, [s]⟩ BlockParent.otherParent)
          rb) ∧
    (∀ (tbl : List Int), SortedTbl tbl →
      ∀ (lb rb : Int) (list : List GoStmt) (sign : FuncSig)
        (groups : List CommentGroup),
      list ≠ [] →
      commentsBetween groups lb rb = [] →
      stmts tbl list = tbl →
      (list.headD default).pos ≤ (list.getLastD default).endP →
      lineOf tbl lb < lineOf tbl (list.headD default).pos →
      lineOf tbl (list.getLastD default).endP < lineOf tbl rb →
      sign.pos ≤ sign.endP → sign.endP ≤ lb →
      lineOf tbl sign.pos = lineOf tbl sign.endP →
      applyPreBlockStmt tbl groups ⟨lb, rb, list⟩ (BlockParent.funcParent sign) =
        removeLinesBetween (removeLinesBetween tbl (list.getLastD default).endP rb)
          lb (list.headD default).pos ∧
      lineOf (applyPreBlockStmt tbl groups ⟨lb, rb, list⟩
          (BlockParent.funcParent sign)) (list.headD default).pos =
        lineOf tbl lb + 1 ∧
      lineOf (applyPreBlockStmt tbl groups ⟨lb, rb, list⟩
          (BlockParent.funcParent sign)) rb =
        lineOf (applyPreBlockStmt tbl groups ⟨lb, rb, list⟩
          (BlockParent.funcParent sign)) (list.getLastD default).endP + 1 ∧
      lineOf (applyPreBlockStmt tbl groups ⟨lb, rb, list⟩
          (BlockParent.funcParent sign)) lb <
        lineOf (applyPreBlockStmt tbl groups ⟨lb, rb, list⟩
          (BlockParent.funcParent sign)) rb) ∧
    (∀ (tbl : List Int), SortedTbl tbl →
      ∀ (lb rb cpos cend : Int) (s : GoStmt) (groups : List CommentGroup),
      commentsBetween groups lb rb = [] →
      s.pos ≤ s.endP →
      lineOf tbl lb < lineOf tbl s.pos →
      lineOf tbl s.endP < lineOf tbl rb →
      cpos ≤ cend → cend ≤ lb →
      lineOf tbl cpos = lineOf tbl cend →
      applyPreBlockStmt tbl groups ⟨lb, rb, [s]⟩
          (BlockParent.condParent (some (cpos, cend))) =
        removeLinesBetween (removeLinesBetween tbl s.endP rb) lb s.pos ∧
      lineOf (applyPreBlockStmt tbl groups ⟨lb, rb, [s]⟩
          (BlockParent.condParent (some (cpos, cend)))) s.pos =
        lineOf tbl lb + 1 ∧
      lineOf (applyPreBlockStmt tbl groups ⟨lb, rb, [s]⟩
          (BlockParent.condParent (some (cpos, cend)))) lb <
        lineOf (applyPreBlockStmt tbl groups ⟨lb, rb, [s]⟩
          (BlockParent.condParent (some (cpos, cend)))) rb) := by
  refine ⟨?_, ?_, ?_⟩
  · intro tbl hs lb rb s groups hcom hse h1 h2
    have heq : applyPreBlockStmt tbl groups ⟨lb, rb, [s]⟩ BlockParent.otherParent =
        removeLinesBetween (removeLinesBetween tbl s.endP rb) lb s.pos := by
      have hstmts : stmts tbl [s] = tbl := rfl
      rw [applyPreBlockStmt]
      simp [hcom, hstmts, blockSign, blockCond]
    have hsp_se : lineOf tbl s.pos ≤ lineOf tbl s.endP := lineOf_mono tbl hse
    obtain ⟨ha1, ha2, hsorted1⟩ := lineOf_removeLinesBetween hs h2
    have hlb1 : lineOf (removeLinesBetween tbl s.endP rb) lb = lineOf tbl lb :=
      ha2 lb (by omega)
    have hsp1 : lineOf (removeLinesBetween tbl s.endP rb) s.pos = lineOf tbl s.pos :=
      ha2 s.pos (by omega)
    have hse1 : lineOf (removeLinesBetween tbl s.endP rb) s.endP =
        lineOf tbl s.endP := ha2 s.endP (by omega)
    have h1' : lineOf (removeLinesBetween tbl s.endP rb) lb <
        lineOf (removeLinesBetween tbl s.endP rb) s.pos := by omega
    obtain ⟨hb1, hb2, hsorted2⟩ := lineOf_removeLinesBetween hsorted1 h1'
    have hse2 := lineOf_removeLinesBetween_after hsorted1 h1' s.endP
      (by omega)
    have hrb2 := lineOf_removeLinesBetween_after hsorted1 h1' rb
      (by omega)
    have hlb2 : lineOf (removeLinesBetween (removeLinesBetween tbl s.endP rb)
        lb s.pos) lb = lineOf tbl lb := by
      rw [hb2 lb (by omega)]
      exact hlb1
    rw [heq]
    refine ⟨rfl, by omega, by omega, by omega⟩
  · intro tbl hs lb rb list sign groups hne hcom hst hse h1 h2 hsg1 hsg2 hsg3
    set s1 := list.headD default with hs1
    set s2 := list.getLastD default with hs2
    have heq : applyPreBlockStmt tbl groups ⟨lb, rb, list⟩
        (BlockParent.funcParent sign) =
        removeLinesBetween (removeLinesBetween tbl s2.endP rb) lb s1.pos := by
      -- the sign branch: the signature is single-line, so the readability
      -- exception does not fire, in both `lastParamPos` cases
      have hsgline : lineOf (removeLinesBetween tbl s2.endP rb) sign.pos =
          lineOf (removeLinesBetween tbl s2.endP rb) sign.endP := by
        have hmono1 : lineOf tbl sign.endP ≤ lineOf tbl lb := lineOf_mono tbl hsg2
        have hmono2 : lineOf tbl s1.pos ≤ lineOf tbl s2.endP := lineOf_mono tbl hse
        obtain ⟨-, hpres, -⟩ := lineOf_removeLinesBetween hs h2
        rw [hpres sign.pos (by omega), hpres sign.endP (by omega), hsg3]
      rw [applyPreBlockStmt]
      simp only [hcom, hst, blockSign, blockCond, ← hs1, ← hs2]
      rw [if_neg (by simp [hne]), if_neg (by simp)]
      simp only [hne, ne_eq, not_false_iff, if_true]
      rw [if_neg (by simp), if_neg (by simp)]
      by_cases hp : sign.lastParamPos.isSome
      · rw [dif_pos hp, if_neg (by rw [hsgline]; simp)]
      · rw [dif_neg hp]
    have hsp_se : lineOf tbl s1.pos ≤ lineOf tbl s2.endP := lineOf_mono tbl hse
    obtain ⟨ha1, ha2, hsorted1⟩ := lineOf_removeLinesBetween hs h2
    have hlb1 : lineOf (removeLinesBetween tbl s2.endP rb) lb = lineOf tbl lb :=
      ha2 lb (by omega)
    have hsp1 : lineOf (removeLinesBetween tbl s2.endP rb) s1.pos =
        lineOf tbl s1.pos := ha2 s1.pos (by omega)
    have hse1 : lineOf (removeLinesBetween tbl s2.endP rb) s2.endP =
        lineOf tbl s2.endP := ha2 s2.endP (by omega)
    have h1' : lineOf (removeLinesBetween tbl s2.endP rb) lb <
        lineOf (removeLinesBetween tbl s2.endP rb) s1.pos := by omega
    obtain ⟨hb1, hb2, hsorted2⟩ := lineOf_removeLinesBetween hsorted1 h1'
    have hse2 := lineOf_removeLinesBetween_after hsorted1 h1' s2.endP
      (by omega)
    have hrb2 := lineOf_removeLinesBetween_after hsorted1 h1' rb
      (by omega)
    have hlb2 : lineOf (removeLinesBetween (removeLinesBetween tbl s2.endP rb)
        lb s1.pos) lb = lineOf tbl lb := by
      rw [hb2 lb (by omega)]
      exact hlb1
    rw [heq]
    refine ⟨rfl, by omega, by omega, by omega⟩

  · intro tbl hs lb rb cpos cend s groups hcom hse h1 h2 hc1 hc2 hc3
    have heq : applyPreBlockStmt tbl groups ⟨lb, rb, [s]⟩
        (BlockParent.condParent (some (cpos, cend))) =
        removeLinesBetween (removeLinesBetween tbl s.endP rb) lb s.pos := by
      -- a single-line condition: the readability exception does not fire
      have hcline : lineOf (removeLinesBetween tbl s.endP rb) cpos =
          lineOf (removeLinesBetween tbl s.endP rb) cend := by
        have hmono1 : lineOf tbl cend ≤ lineOf tbl lb := lineOf_mono tbl hc2
        have hmono2 : lineOf tbl s.pos ≤ lineOf tbl s.endP := lineOf_mono tbl hse
        obtain ⟨-, hpres, -⟩ := lineOf_removeLinesBetween hs h2
        rw [hpres cpos (by omega), hpres cend (by omega), hc3]
      have hstmts : stmts tbl [s] = tbl := rfl
      rw [applyPreBlockStmt]
      simp [hcom, hstmts, blockSign, blockCond, hcline]
    have hsp_se : lineOf tbl s.pos ≤ lineOf tbl s.endP := lineOf_mono tbl hse
    obtain ⟨ha1, ha2, hsorted1⟩ := lineOf_removeLinesBetween hs h2
    have hlb1 : lineOf (removeLinesBetween tbl s.endP rb) lb = lineOf tbl lb :=
      ha2 lb (by omega)
    have hsp1 : lineOf (removeLinesBetween tbl s.endP rb) s.pos =
        lineOf tbl s.pos := ha2 s.pos (by omega)
    have hse1 : lineOf (removeLinesBetween tbl s.endP rb) s.endP =
        lineOf tbl s.endP := ha2 s.endP (by omega)
    have h1' : lineOf (removeLinesBetween tbl s.endP rb) lb <
        lineOf (removeLinesBetween tbl s.endP rb) s.pos := by omega
    obtain ⟨hb1, hb2, hsorted2⟩ := lineOf_removeLinesBetween hsorted1 h1'
    have hrb2 := lineOf_removeLinesBetween_after hsorted1 h1' rb (by omega)
    have hlb2 : lineOf (removeLinesBetween (removeLinesBetween tbl s.endP rb)
        lb s.pos) lb = lineOf tbl lb := by
      rw [hb2 lb (by omega)]
      exact hlb1
    rw [heq]
    refine ⟨rfl, by omega, by omega⟩

/-- Witness for C2 (amended), at the counterexample's block, at a two-
statement function body, and under a single-line `if` condition. -/
theorem block_blank_line_trim_witness :
    applyPreBlockStmt [0, 7, 8, 13, 14] [] ⟨5, 14, [GoStmt.otherStmt 9 12]⟩
        BlockParent.otherParent =
      removeLinesBetween (removeLinesBetween [0, 7, 8, 13, 14] 12 14) 5 9 ∧
    applyPreBlockStmt [0, 7, 8, 13, 14, 20, 25] []
        ⟨5, 24, [GoStmt.otherStmt 9 12, GoStmt.otherStmt 15 19]⟩
        (BlockParent.funcParent ⟨1, 3, none⟩) =
      removeLinesBetween (removeLinesBetween [0, 7, 8, 13, 14, 20, 25] 19 24) 5 9 ∧
    applyPreBlockStmt [0, 7, 8, 13, 14] [] ⟨5, 14, [GoStmt.otherStmt 9 12]⟩
        (BlockParent.condParent (some (1, 3))) =
      removeLinesBetween (removeLinesBetween [0, 7, 8, 13, 14] 12 14) 5 9 := by
  have ha := block_blank_line_trim.1 [0, 7, 8, 13, 14] (by decide) 5 14
    (GoStmt.otherStmt 9 12) [] (by decide) (by decide) (by decide) (by decide)
  have hb := block_blank_line_trim.2.1 [0, 7, 8, 13, 14, 20, 25] (by decide) 5 24
    [GoStmt.otherStmt 9 12, GoStmt.otherStmt 15 19] ⟨1, 3, none⟩ []
    (by decide) (by decide) (by decide) (by decide) (by decide) (by decide)
    (by decide) (by decide) (by decide)
  have hc := block_blank_line_trim.2.2 [0, 7, 8, 13, 14] (by decide) 5 14 1 3
    (GoStmt.otherStmt 9 12) [] (by decide) (by decide) (by decide) (by decide)
    (by decide) (by decide) (by decide)
  exact ⟨ha.1, hb.1, hc.1⟩

/-! ## C5: the long-line split decision -/

/-- **C5 counterexample.**  With splitting enabled, depth 0, default context:
a single-line list-member node starting at column 50 and ending at column 101
on a line that ends at column 106.  The claim's conditions hold — the end
column 101 exceeds the long-line limit 100 and both halves (50 and 56) are at
least `0.4 × 100 = 40` — yet no break is inserted, because `splitLongLine`
first requires the start column to exceed the short-line limit 60
(format.go:689), a condition the claim omits. -/
theorem splitLongLine_counterexample :
    splitLongLine true [0] 105 0 SplitContext.defaultCtx true
      (SplitNode.plainN 49 100) = [0] ∧
    colOf [0] 100 + 0 * 7 > 100 ∧
    colOf [0] 49 - 0 ≥ minSplitLength SplitContext.defaultCtx ∧
    colOf [0] (lineEnd [0] 105 (lineOf [0] 49)) - colOf [0] 49 ≥
      minSplitLength SplitContext.defaultCtx := by
  decide

/-- **C5 amended.**  With long-line splitting enabled, a break is inserted
before a single-line list-member node if and only if, *in addition to the
claim's conditions* (line-end column over the long-line limit 100 and both
halves at least the context's minimum split length — `int(0.4*100) = 40` by
default, `int(0.6*100) = 60` in a top-level parameter list, `100000` in a
top-level result list, so splitting is impossible there for any realistic
line), the node's start column with the `depth*7` approximation exceeds the
short-line limit 60; in particular a line ending at or under the long-line
limit is never split. -/
theorem splitLongLine_split_decision
    (tbl : List Int) (hs : SortedTbl tbl) (hpos : ∀ x ∈ tbl, 0 ≤ x)
    (fileEnd : Int) (bl : Nat) (ctx : SplitContext) (p e : Int)
    (hpe : p ≤ e)
    (hline : lineOf tbl p = lineOf tbl e) :
    (splitLongLine true tbl fileEnd bl ctx true (SplitNode.plainN p e) =
      if colOf tbl p + (bl : Int) * 7 > (shortLineLimit : Int) ∧
          colOf tbl e + (bl : Int) * 7 > (longLineLimit : Int) ∧
          colOf tbl p - (bl : Int) ≥ minSplitLength ctx ∧
          colOf tbl (lineEnd tbl fileEnd (lineOf tbl p)) - colOf tbl p ≥
            minSplitLength ctx
      then addNewline tbl p else tbl) ∧
    (colOf tbl e + (bl : Int) * 7 ≤ (longLineLimit : Int) →
      splitLongLine true tbl fileEnd bl ctx true (SplitNode.plainN p e) = tbl) ∧
    (ctx = SplitContext.topFuncResults →
      colOf tbl (lineEnd tbl fileEnd (lineOf tbl p)) - colOf tbl p < 100000 →
      splitLongLine true tbl fileEnd bl ctx true (SplitNode.plainN p e) = tbl) ∧
    (∀ (inList : Bool) (node : SplitNode),
      splitLongLine false tbl fileEnd bl ctx inList node = tbl) ∧
    (p ∉ tbl → 0 ≤ p →
      (colOf tbl p + (bl : Int) * 7 > (shortLineLimit : Int) ∧
        colOf tbl e + (bl : Int) * 7 > (longLineLimit : Int) ∧
        colOf tbl p - (bl : Int) ≥ minSplitLength ctx ∧
        colOf tbl (lineEnd tbl fileEnd (lineOf tbl p)) - colOf tbl p ≥
          minSplitLength ctx) →
      lineOf (splitLongLine true tbl fileEnd bl ctx true (SplitNode.plainN p e)) e =
        lineOf tbl e + 1) := by
  have hmain : splitLongLine true tbl fileEnd bl ctx true (SplitNode.plainN p e) =
      if colOf tbl p + (bl : Int) * 7 > (shortLineLimit : Int) ∧
          colOf tbl e + (bl : Int) * 7 > (longLineLimit : Int) ∧
          colOf tbl p - (bl : Int) ≥ minSplitLength ctx ∧
          colOf tbl (lineEnd tbl fileEnd (lineOf tbl p)) - colOf tbl p ≥
            minSplitLength ctx
      then addNewline tbl p else tbl := by
    rw [splitLongLine, if_neg (by simp), splitLongLineMain]
    simp only [SplitNode.pos, SplitNode.endP]
    rw [if_neg (by simpa using hline)]
    case x_1 => intro a b c h; cases h
    by_cases hC : colOf tbl p + (bl : Int) * 7 > (shortLineLimit : Int) ∧
        colOf tbl e + (bl : Int) * 7 > (longLineLimit : Int) ∧
        colOf tbl p - (bl : Int) ≥ minSplitLength ctx ∧
        colOf tbl (lineEnd tbl fileEnd (lineOf tbl p)) - colOf tbl p ≥
          minSplitLength ctx
    · have hS : ¬(colOf tbl p + (bl : Int) * 7 ≤ (shortLineLimit : Int)) := by
        omega
      rw [if_neg hS, if_pos hC.2, if_pos hC]
      rfl
    · rw [if_neg hC]
      by_cases hS : colOf tbl p + (bl : Int) * 7 ≤ (shortLineLimit : Int)
      · rw [if_pos hS]
        rfl
      · rw [if_neg hS, if_neg (fun hinner => hC ⟨by omega, hinner⟩)]
        rfl
  refine ⟨hmain, ?_, ?_, ?_, ?_⟩
  · intro h
    rw [hmain, if_neg (by omega)]
  · intro hctx h
    rw [hmain, if_neg ?_]
    rintro ⟨-, -, -, h4⟩
    rw [hctx] at h4
    simp only [minSplitLength] at h4
    omega
  · intro inList node
    rw [splitLongLine, if_pos (by simp)]
  · intro hmem hp hcond
    rw [hmain, if_pos hcond,
      lineOf_addNewline_not_mem hs hpos hp hmem e, if_pos hpe]

/-- Witness for C5 (amended): at start column 65 on a line ending at column
106 with end column 102, the split fires and inserts the break. -/
theorem splitLongLine_split_decision_witness :
    splitLongLine true [0] 105 0 SplitContext.defaultCtx true
      (SplitNode.plainN 64 101) = addNewline [0] 64 ∧
    lineOf (splitLongLine true [0] 105 0 SplitContext.defaultCtx true
      (SplitNode.plainN 64 101)) 101 = lineOf [(0 : Int)] 101 + 1 ∧
    splitLongLine true [0] 105 0 SplitContext.topFuncResults true
      (SplitNode.plainN 64 101) = [0] := by
  have h := splitLongLine_split_decision [0] (by decide) (by decide) 105 0
    SplitContext.defaultCtx 64 101 (by decide) (by decide)
  have hres := splitLongLine_split_decision [0] (by decide) (by decide) 105 0
    SplitContext.topFuncResults 64 101 (by decide) (by decide)
  refine ⟨?_, ?_, ?_⟩
  · rw [h.1, if_pos (by decide)]
  · exact h.2.2.2.2 (by decide) (by decide) (by decide)
  · exact hres.2.2.1 rfl (by decide)

/-! ## C3: composite-literal layout -/

/-- **C3 counterexample.**  The literal `T{a,\n b, c}` (table `[0,5]`, braces
at 1 and 9, elements a: 2..3, b: 5..6, c: 8..9, none itself a composite
literal): elements a and b sit on different source lines, so per the claim one
pass should force every element onto its own line.  Instead the pass only
inserts breaks after `{` and before `}`: afterwards b (ending at 6) and c
(starting at 8) still share a line. -/
theorem composite_one_per_line_counterexample :
    applyPostCompositeLit [0, 5] ⟨1, 9, [⟨2, 3, false⟩, ⟨5, 6, false⟩, ⟨8, 9, false⟩]⟩ =
      [0, 2, 5, 9] ∧
    lineOf [(0 : Int), 5] 3 = 1 ∧
    lineOf [(0 : Int), 5] 5 = 2 ∧
    lineOf [(0 : Int), 2, 5, 9] 6 = lineOf [(0 : Int), 2, 5, 9] 8 := by
  decide

/-- Evaluating the element loop of the composite rule on a three-element
literal whose first element shares the opening line and whose last two share
the following line: no leading-line removal, `newlineBetweenElems` set. -/
theorem eltScan_three (t : List Int) (E1 E2 E3 : Elt) (openLine : Nat)
    (h1 : lineOf t E1.pos = openLine) (h1e : lineOf t E1.endP = openLine)
    (h2 : lineOf t E2.pos = openLine + 1) (h2e : lineOf t E2.endP = openLine + 1)
    (h3 : lineOf t E3.pos = openLine + 1) (h3e : lineOf t E3.endP = openLine + 1) :
    [E1, E2, E3].foldl (eltStep openLine) (t, false, false, openLine, 0) =
      (t, false, true, openLine + 1, 3) := by
  have s1 : eltStep openLine (t, false, false, openLine, 0) E1 =
      (t, false, false, openLine, 1) := by
    rw [eltStep, h1, if_neg (by omega), h1e]
  have s2 : eltStep openLine (t, false, false, openLine, 1) E2 =
      (t, false, true, openLine + 1, 2) := by
    rw [eltStep, h2, if_pos (by omega), if_neg (by omega), h2e]
  have s3 : eltStep openLine (t, false, true, openLine + 1, 2) E3 =
      (t, false, true, openLine + 1, 3) := by
    rw [eltStep, h3, if_neg (by omega), h3e]
  rw [List.foldl_cons, s1, List.foldl_cons, s2, List.foldl_cons, s3,
    List.foldl_nil]

/-- The same loop one pass later: the first element now starts one line after
the opening brace (the leading-line removal is an empty range, a no-op) and
the last two elements sit one line further down. -/
theorem eltScan_three_second (t : List Int) (E1 E2 E3 : Elt) (openLine : Nat)
    (h1 : lineOf t E1.pos = openLine + 1) (h1e : lineOf t E1.endP = openLine + 1)
    (h2 : lineOf t E2.pos = openLine + 2) (h2e : lineOf t E2.endP = openLine + 2)
    (h3 : lineOf t E3.pos = openLine + 2) (h3e : lineOf t E3.endP = openLine + 2) :
    [E1, E2, E3].foldl (eltStep openLine) (t, false, false, openLine, 0) =
      (t, true, true, openLine + 2, 3) := by
  have s1 : eltStep openLine (t, false, false, openLine, 0) E1 =
      (t, true, false, openLine + 1, 1) := by
    rw [eltStep, h1, if_pos (by omega), if_pos rfl,
      removeLines_of_ge (by omega), h1e]
  have s2 : eltStep openLine (t, true, false, openLine + 1, 1) E2 =
      (t, true, true, openLine + 2, 2) := by
    rw [eltStep, h2, if_pos (by omega), if_neg (by omega), h2e]
  have s3 : eltStep openLine (t, true, true, openLine + 2, 2) E3 =
      (t, true, true, openLine + 2, 3) := by
    rw [eltStep, h3, if_neg (by omega), h3e]
  rw [List.foldl_cons, s1, List.foldl_cons, s2, List.foldl_cons, s3,
    List.foldl_nil]

/-- **C3 amended.**  For a multi-line composite literal whose first element
shares the opening-brace line, whose other two elements share the following
line with the closing brace, and none of whose elements is itself a composite
literal: one pass inserts exactly a break right after the opening brace and a
break right before the closing brace; the two adjacent elements that shared a
line still share it (one-element-per-line is *not* forced — between-element
breaks are only added when one of the two neighbours is itself a composite
literal); and a second pass changes nothing. -/
theorem composite_layout_pass
    (tbl : List Int) (hs : SortedTbl tbl) (hpos : ∀ x ∈ tbl, 0 ≤ x)
    (lb rb e1p e1e e2p e2e e3p e3e : Int) (L : Nat)
    (hlb : 0 ≤ lb)
    (ho1 : lb + 1 ≤ e1p) (ho2 : e1p ≤ e1e) (ho3 : e1e ≤ e2p) (ho4 : e2p ≤ e2e)
    (ho5 : e2e ≤ e3p) (ho6 : e3p ≤ e3e) (ho7 : e3e < rb)
    (hL1 : lineOf tbl lb = L) (hL2 : lineOf tbl e1p = L)
    (hL3 : lineOf tbl e1e = L) (hL4 : lineOf tbl e2p = L + 1)
    (hL5 : lineOf tbl e2e = L + 1) (hL6 : lineOf tbl e3p = L + 1)
    (hL7 : lineOf tbl e3e = L + 1) (hL8 : lineOf tbl rb = L + 1)
    (hm1 : lb + 1 ∉ tbl) (hm2 : rb ∉ tbl) :
    applyPostCompositeLit tbl
        ⟨lb, rb, [⟨e1p, e1e, false⟩, ⟨e2p, e2e, false⟩, ⟨e3p, e3e, false⟩]⟩ =
      addNewline (addNewline tbl (lb + 1)) rb ∧
    lineOf (addNewline (addNewline tbl (lb + 1)) rb) lb + 1 =
      lineOf (addNewline (addNewline tbl (lb + 1)) rb) e1p ∧
    lineOf (addNewline (addNewline tbl (lb + 1)) rb) e2e =
      lineOf (addNewline (addNewline tbl (lb + 1)) rb) e3p ∧
    lineOf (addNewline (addNewline tbl (lb + 1)) rb) e3e + 1 =
      lineOf (addNewline (addNewline tbl (lb + 1)) rb) rb ∧
    applyPostCompositeLit (addNewline (addNewline tbl (lb + 1)) rb)
        ⟨lb, rb, [⟨e1p, e1e, false⟩, ⟨e2p, e2e, false⟩, ⟨e3p, e3e, false⟩]⟩ =
      addNewline (addNewline tbl (lb + 1)) rb := by
  have hlb1 : (0 : Int) ≤ lb + 1 := by omega
  have hrb0 : (0 : Int) ≤ rb := by omega
  -- facts about the first insertion
  have hs1 : SortedTbl (addNewline tbl (lb + 1)) :=
    sorted_addNewline hs hpos hlb1 hm1
  have hpos1 : ∀ x ∈ addNewline tbl (lb + 1), 0 ≤ x :=
    nonneg_addNewline hs hpos hlb1 hm1
  have hm2' : rb ∉ addNewline tbl (lb + 1) := by
    rw [mem_addNewline hs hpos hlb1 hm1]
    rintro (h | h)
    · exact hm2 h
    · omega
  have hline1 : ∀ x : Int, lineOf (addNewline tbl (lb + 1)) x =
      lineOf tbl x + if lb + 1 ≤ x then 1 else 0 :=
    lineOf_addNewline_not_mem hs hpos hlb1 hm1
  have hline2 : ∀ x : Int, lineOf (addNewline (addNewline tbl (lb + 1)) rb) x =
      lineOf (addNewline tbl (lb + 1)) x + if rb ≤ x then 1 else 0 :=
    lineOf_addNewline_not_mem hs1 hpos1 hrb0 hm2'
  -- line numbers after the first insertion
  have t1lb : lineOf (addNewline tbl (lb + 1)) lb = L := by
    rw [hline1, hL1, if_neg (by omega)]
    omega
  have t1e1p : lineOf (addNewline tbl (lb + 1)) e1p = L + 1 := by
    rw [hline1, hL2, if_pos (by omega)]
  have t1e1e : lineOf (addNewline tbl (lb + 1)) e1e = L + 1 := by
    rw [hline1, hL3, if_pos (by omega)]
  have t1e2p : lineOf (addNewline tbl (lb + 1)) e2p = L + 2 := by
    rw [hline1, hL4, if_pos (by omega)]
  have t1e2e : lineOf (addNewline tbl (lb + 1)) e2e = L + 2 := by
    rw [hline1, hL5, if_pos (by omega)]
  have t1e3p : lineOf (addNewline tbl (lb + 1)) e3p = L + 2 := by
    rw [hline1, hL6, if_pos (by omega)]
  have t1e3e : lineOf (addNewline tbl (lb + 1)) e3e = L + 2 := by
    rw [hline1, hL7, if_pos (by omega)]
  have t1rb : lineOf (addNewline tbl (lb + 1)) rb = L + 2 := by
    rw [hline1, hL8, if_pos (by omega)]
  -- line numbers after the second insertion
  have t2lb : lineOf (addNewline (addNewline tbl (lb + 1)) rb) lb = L := by
    rw [hline2, t1lb, if_neg (by omega)]
    omega
  have t2e1p : lineOf (addNewline (addNewline tbl (lb + 1)) rb) e1p = L + 1 := by
    rw [hline2, t1e1p, if_neg (by omega)]
  have t2e1e : lineOf (addNewline (addNewline tbl (lb + 1)) rb) e1e = L + 1 := by
    rw [hline2, t1e1e, if_neg (by omega)]
  have t2e2p : lineOf (addNewline (addNewline tbl (lb + 1)) rb) e2p = L + 2 := by
    rw [hline2, t1e2p, if_neg (by omega)]
  have t2e2e : lineOf (addNewline (addNewline tbl (lb + 1)) rb) e2e = L + 2 := by
    rw [hline2, t1e2e, if_neg (by omega)]
  have t2e3p : lineOf (addNewline (addNewline tbl (lb + 1)) rb) e3p = L + 2 := by
    rw [hline2, t1e3p, if_neg (by omega)]
  have t2e3e : lineOf (addNewline (addNewline tbl (lb + 1)) rb) e3e = L + 2 := by
    rw [hline2, t1e3e, if_neg (by omega)]
  have t2rb : lineOf (addNewline (addNewline tbl (lb + 1)) rb) rb = L + 3 := by
    rw [hline2, t1rb, if_pos (by omega)]
  have hpass1 : applyPostCompositeLit tbl
      ⟨lb, rb, [⟨e1p, e1e, false⟩, ⟨e2p, e2e, false⟩, ⟨e3p, e3e, false⟩]⟩ =
      addNewline (addNewline tbl (lb + 1)) rb := by
    rw [applyPostCompositeLit, if_neg (by simp)]
    dsimp only
    rw [hL1, hL8, if_neg (by omega),
      eltScan_three tbl _ _ _ L hL2 hL3 hL4 hL5 hL6 hL7]
    dsimp only
    simp only [List.headD_cons, List.getLastD_cons, List.getLastD_nil]
    have hc1 : L = lineOf tbl e1p := hL2.symm
    rw [if_pos hc1]
    dsimp only
    have hc2 : lineOf (addNewline tbl (lb + 1)) rb =
        lineOf (addNewline tbl (lb + 1)) e3e := by rw [t1rb, t1e3e]
    rw [if_pos hc2]
    simp only [Bool.not_true, Bool.true_or, Bool.or_true, Bool.false_or,
      Bool.false_eq_true, if_false, eq_self_iff_true, if_true,
      List.drop_succ_cons, List.drop_zero, List.zip_cons_cons,
      List.zip_nil_right, List.foldl_cons, List.foldl_nil, Bool.or_self,
      Bool.false_and]
  have hpass2 : applyPostCompositeLit (addNewline (addNewline tbl (lb + 1)) rb)
      ⟨lb, rb, [⟨e1p, e1e, false⟩, ⟨e2p, e2e, false⟩, ⟨e3p, e3e, false⟩]⟩ =
      addNewline (addNewline tbl (lb + 1)) rb := by
    rw [applyPostCompositeLit, if_neg (by simp)]
    dsimp only
    rw [t2lb, t2rb, if_neg (by omega),
      eltScan_three_second _ _ _ _ L t2e1p t2e1e t2e2p t2e2e t2e3p t2e3e]
    dsimp only
    simp only [List.headD_cons, List.getLastD_cons, List.getLastD_nil]
    have hc1 : ¬(L = lineOf (addNewline (addNewline tbl (lb + 1)) rb) e1p) := by
      rw [t2e1p]
      omega
    rw [if_neg hc1]
    dsimp only
    have hc2 : ¬(L + 3 = lineOf (addNewline (addNewline tbl (lb + 1)) rb) e3e) := by
      rw [t2e3e]
      omega
    rw [if_neg hc2]
    simp only [Bool.not_true, Bool.true_or, Bool.or_true, Bool.false_or,
      Bool.false_eq_true, if_false, eq_self_iff_true, if_true,
      List.drop_succ_cons, List.drop_zero, List.zip_cons_cons,
      List.zip_nil_right, List.foldl_cons, List.foldl_nil, Bool.or_self,
      Bool.false_and]
  have c1 : lineOf (addNewline (addNewline tbl (lb + 1)) rb) lb + 1 =
      lineOf (addNewline (addNewline tbl (lb + 1)) rb) e1p := by
    rw [t2lb, t2e1p]
  have c2 : lineOf (addNewline (addNewline tbl (lb + 1)) rb) e2e =
      lineOf (addNewline (addNewline tbl (lb + 1)) rb) e3p := by
    rw [t2e2e, t2e3p]
  have c3 : lineOf (addNewline (addNewline tbl (lb + 1)) rb) e3e + 1 =
      lineOf (addNewline (addNewline tbl (lb + 1)) rb) rb := by
    rw [t2e3e, t2rb]
  exact ⟨hpass1, c1, c2, c3, hpass2⟩

/-- Witness for C3 (amended): the literal `T{a,\n b, c }` (closing brace one
byte after the last element's end): the pass equals the two insertions and a
second pass is a no-op. -/
theorem composite_layout_pass_witness :
    applyPostCompositeLit [0, 5]
        ⟨1, 10, [⟨2, 3, false⟩, ⟨5, 6, false⟩, ⟨8, 9, false⟩]⟩ =
      addNewline (addNewline [0, 5] 2) 10 ∧
    applyPostCompositeLit (addNewline (addNewline [0, 5] 2) 10)
        ⟨1, 10, [⟨2, 3, false⟩, ⟨5, 6, false⟩, ⟨8, 9, false⟩]⟩ =
      addNewline (addNewline [0, 5] 2) 10 := by
  have h := composite_layout_pass [0, 5] (by decide) (by decide)
    1 10 2 3 5 6 8 9 1 (by decide)
    (by decide) (by decide) (by decide) (by decide) (by decide) (by decide)
    (by decide)
    (by decide) (by decide) (by decide) (by decide) (by decide) (by decide)
    (by decide) (by decide)
    (by decide) (by decide)
  exact ⟨h.1, h.2.2.2.2⟩

end Gofumpt
